import Mathlib

/-!
Verification of the Discrete-Calculator core modules.

Strings are modelled as `List Char`; Python integers as `Int`; Python's
fallible operations return `Option`.  Each definition mirrors one function of
the repository: `NumberSystemConverter` (number_systems.py), `SetOperations`
(set_operations.py), `SearchingAlgorithms` (searching.py), `SortingAlgorithms`
(sorting.py).  Trace lines are modelled as structured step records (one
constructor per distinct `steps.append` site); the rendered message text is a
function of the recorded operands.
-/

namespace DiscreteCalc

open List

/-! ## number_systems.py -/

namespace NumberSystemConverter

/-- The digit alphabet string `"0123456789ABCDEF"` used by the converter. -/
def hexChars : List Char :=
  ['0', '1', '2', '3', '4', '5', '6', '7', '8', '9', 'A', 'B', 'C', 'D', 'E', 'F']

/-- Digit validation and value for `binary_to_decimal`: the source checks
`digit not in "01"` and then applies `int(digit)`. -/
def dv2 (c : Char) : Option Nat :=
  if c ∈ ['0', '1'] then some (c.toNat - 48) else none

/-- Digit validation and value for `octal_to_decimal`: membership in
`"01234567"`, value via `int(digit)`. -/
def dv8 (c : Char) : Option Nat :=
  if c ∈ ['0', '1', '2', '3', '4', '5', '6', '7'] then some (c.toNat - 48) else none

/-- Decimal digit value, used to model the digits accepted by Python `int()`. -/
def dv10 (c : Char) : Option Nat :=
  if c ∈ ['0', '1', '2', '3', '4', '5', '6', '7', '8', '9'] then some (c.toNat - 48) else none

/-- Digit validation and value for `hexadecimal_to_decimal`: membership in
`hex_chars` and value via `hex_chars.index(char)`. -/
def dvHex (c : Char) : Option Nat :=
  if c ∈ hexChars then some (hexChars.indexOf c) else none

/-- The positional-weight summation loop shared by the three `*_to_decimal`
functions: `for i, digit in enumerate(reversed(s)): decimal += dv(digit) * base ** i`,
raising (`none`) on the first invalid digit. The list argument is the reversed
digit string and the `Nat` argument the running exponent `i`. -/
def weightedSum (b : Nat) (dv : Char → Option Nat) : List Char → Nat → Option Nat
  | [], _ => some 0
  | c :: cs, i =>
    match dv c, weightedSum b dv cs (i + 1) with
    | some d, some s => some (d * b ^ i + s)
    | _, _ => none

/-- The common skeleton of `binary_to_decimal`, `octal_to_decimal` and
`hexadecimal_to_decimal` after their string preprocessing: detect and strip a
leading minus sign, then positional-weight summation over the reversed digits. -/
def strToDecimal (b : Nat) (dv : Char → Option Nat) (s : List Char) : Option Int :=
  match s with
  | '-' :: rest => (weightedSum b dv rest.reverse 0).map (fun n => -(n : Int))
  | t => (weightedSum b dv t.reverse 0).map (fun n => (n : Int))

/-- `binary_to_decimal`: removes spaces (`replace(" ", "")`), strips an
optional leading minus, validates digits against `"01"` and sums weights. -/
def binary_to_decimal (s : List Char) : Option Int :=
  strToDecimal 2 dv2 (s.filter (fun c => c ≠ ' '))

/-- `octal_to_decimal`: same shape with alphabet `"01234567"`. -/
def octal_to_decimal (s : List Char) : Option Int :=
  strToDecimal 8 dv8 (s.filter (fun c => c ≠ ' '))

/-- `hexadecimal_to_decimal`: removes spaces, upper-cases (`upper()`), then
validates against `hex_chars` using `hex_chars.index` for digit values. -/
def hexadecimal_to_decimal (s : List Char) : Option Int :=
  strToDecimal 16 dvHex ((s.filter (fun c => c ≠ ' ')).map Char.toUpper)

/-- The repeated divide-by-base loop of the `decimal_to_*` functions on the
magnitude `num = abs(decimal)`, with an explicit structural iteration bound so
that the kernel can evaluate it: while `num > 0`, prepend the digit character
`hex_chars[num % base]` and set `num //= base`.  Rendered most significant
digit first.  The bound never runs out when it starts at `num` (each division
by `base ≥ 2` strictly decreases a positive `num`), so the fuel-exhaustion
branch is unreachable from `natToDigits`. -/
def natToDigitsAux (b : Nat) : Nat → Nat → List Char
  | _, 0 => []
  | 0, _ + 1 => []
  | fuel + 1, n + 1 =>
    if 2 ≤ b then natToDigitsAux b fuel ((n + 1) / b) ++ [hexChars.getD ((n + 1) % b) '0']
    else []

/-- The divide-by-base rendering loop of the `decimal_to_*` functions. -/
def natToDigits (b n : Nat) : List Char := natToDigitsAux b n n

/-- The shared skeleton of the three `decimal_to_*` functions (and of Python
`str` on an integer, which is the same algorithm at base 10): special-case 0,
render the magnitude `abs(decimal)` by repeated division, reattach the sign
(`result if decimal >= 0 else "-" + result`). -/
def renderToBase (b : Nat) (d : Int) : List Char :=
  if d = 0 then ['0']
  else if 0 ≤ d then natToDigits b d.natAbs
  else '-' :: natToDigits b d.natAbs

/-- `decimal_to_binary`. -/
def decimal_to_binary (d : Int) : List Char := renderToBase 2 d

/-- `decimal_to_octal`. -/
def decimal_to_octal (d : Int) : List Char := renderToBase 8 d

/-- `decimal_to_hexadecimal`: digit characters drawn from `hex_chars`. -/
def decimal_to_hexadecimal (d : Int) : List Char := renderToBase 16 d

/-- Nonempty all-decimal digit-string value, the digit part of Python `int()`
parsing: fails on the empty string, otherwise positional summation base 10. -/
def decDigitsVal (s : List Char) : Option Nat :=
  if s = [] then none else weightedSum 10 dv10 s.reverse 0

/-- Python `str.strip()`: drop whitespace from both ends. -/
def pyStrip (s : List Char) : List Char :=
  ((s.dropWhile Char.isWhitespace).reverse.dropWhile Char.isWhitespace).reverse

/-- Models Python `int(value)` on a string as used by `convert` when
`from_base == 10`: surrounding whitespace is stripped, an optional single
leading `+` or `-` sign is consumed, and the remainder must be one or more
decimal digits.  (CPython digit-grouping underscores are not modelled; no
input considered here contains them.) -/
def pyInt (s : List Char) : Option Int :=
  match pyStrip s with
  | '+' :: ds => (decDigitsVal ds).map (fun n => (n : Int))
  | '-' :: ds => (decDigitsVal ds).map (fun n => -(n : Int))
  | ds => (decDigitsVal ds).map (fun n => (n : Int))

/-- Python `str(decimal)` for an integer, used by `convert` when
`to_base == 10`. -/
def intStr (d : Int) : List Char := renderToBase 10 d

/-- First phase of `convert`: dispatch on `from_base` to obtain the decimal
value (raising, i.e. `none`, on invalid input or an unsupported base). -/
def toDec (from_base : Nat) (value : List Char) : Option Int :=
  match from_base with
  | 10 => pyInt value
  | 2 => binary_to_decimal value
  | 8 => octal_to_decimal value
  | 16 => hexadecimal_to_decimal value
  | _ => none

/-- Second phase of `convert`: dispatch on `to_base` to render the decimal
value (raising on an unsupported base). -/
def fromDec (to_base : Nat) (decimal : Int) : Option (List Char) :=
  match to_base with
  | 10 => some (intStr decimal)
  | 2 => some (decimal_to_binary decimal)
  | 8 => some (decimal_to_octal decimal)
  | 16 => some (decimal_to_hexadecimal decimal)
  | _ => none

/-- `NumberSystemConverter.convert`: parse in `from_base`, render in
`to_base`; an error in the first phase propagates before the second runs. -/
def convert (value : List Char) (from_base to_base : Nat) : Option (List Char) :=
  match toDec from_base value with
  | none => none
  | some decimal => fromDec to_base decimal

end NumberSystemConverter

/-! ## set_operations.py -/

namespace SetOperations

variable {α : Type} [DecidableEq α]

/-- `union`: `set_a | set_b`. -/
def union (A B : Finset α) : Finset α := A ∪ B

/-- `intersection`: `set_a & set_b`. -/
def intersection (A B : Finset α) : Finset α := A ∩ B

/-- `difference`: `set_a - set_b`. -/
def difference (A B : Finset α) : Finset α := A \ B

/-- `cardinality`: `len(set_a)`. -/
def cardinality (A : Finset α) : Nat := A.card

end SetOperations

/-! ## searching.py -/

/-- Floor division by two: characterization of `Int.fdiv n 2`, used for the
termination and bounds of the binary-search midpoint `(left + right) // 2`. -/
theorem two_mul_fdiv_two_bounds (n : Int) :
    2 * n.fdiv 2 ≤ n ∧ n < 2 * n.fdiv 2 + 2 := by
  cases n with
  | ofNat m =>
    have h : (Int.ofNat m).fdiv 2 = Int.ofNat (m / 2) := by
      cases m with
      | zero => rfl
      | succ k => rfl
    rw [h]
    simp only [Int.ofNat_eq_natCast]
    have hm := Nat.div_add_mod m 2
    have hm2 : m % 2 < 2 := Nat.mod_lt _ (by norm_num)
    omega
  | negSucc m =>
    have h : (Int.negSucc m).fdiv 2 = Int.negSucc (m / 2) := rfl
    rw [h, Int.negSucc_eq, Int.negSucc_eq]
    have hm := Nat.div_add_mod m 2
    have hm2 : m % 2 < 2 := Nat.mod_lt _ (by norm_num)
    omega

namespace SearchingAlgorithms

/-- Trace steps of `linear_search`, one constructor per `steps.append` site:
the per-comparison line records index, element and whether it matched; the
success line records the index; the final constructor is the failure line. -/
inductive LinStep (α : Type) where
  | check (i : Nat) (element : α) (eq : Bool)
  | found (i : Nat)
  | notFound
deriving DecidableEq

/-- The `for i, element in enumerate(array)` loop of `linear_search`, with `i`
the running index: append a check line for each element, return `i` with a
success line on the first match, fall through to the failure line. -/
def linGo {α : Type} [DecidableEq α] (target : α) : List α → Nat → Int × List (LinStep α)
  | [], _ => (-1, [LinStep.notFound])
  | x :: rest, i =>
    if x = target then ((i : Int), [LinStep.check i x true, LinStep.found i])
    else
      let (res, t) := linGo target rest (i + 1)
      (res, LinStep.check i x false :: t)

/-- `linear_search(array, target)`: returns `(index, steps)`, index `-1` when
not found. -/
def linear_search {α : Type} [DecidableEq α] (array : List α) (target : α) :
    Int × List (LinStep α) :=
  linGo target array 0

/-- Trace steps of `binary_search`: the probe line records the step number,
index and value; the two half-retention lines record the retained bounds; the
success line records the index; the final constructor is the failure line. -/
inductive BinStep (α : Type) where
  | probe (stepNum : Nat) (mid : Int) (midValue : α)
  | goRight (lo hi : Int)
  | goLeft (lo hi : Int)
  | found (mid : Int)
  | notFound
deriving DecidableEq

/-- The `while left <= right` loop of `binary_search`:
`mid = (left + right) // 2` (Python floor division, `Int.fdiv`), probe
`array[mid]`, return on match, otherwise keep the right half (`left = mid+1`)
or the left half (`right = mid-1`). -/
def binGo {α : Type} [LinearOrder α] [Inhabited α] (array : List α) (target : α)
    (left right : Int) (stepNum : Nat) : Int × List (BinStep α) :=
  if h : left ≤ right then
    let mid := (left + right).fdiv 2
    let midValue := array.getD mid.toNat default
    if midValue = target then
      (mid, [BinStep.probe stepNum mid midValue, BinStep.found mid])
    else if midValue < target then
      let (res, t) := binGo array target (mid + 1) right (stepNum + 1)
      (res, BinStep.probe stepNum mid midValue :: BinStep.goRight (mid + 1) right :: t)
    else
      let (res, t) := binGo array target left (mid - 1) (stepNum + 1)
      (res, BinStep.probe stepNum mid midValue :: BinStep.goLeft left (mid - 1) :: t)
  else (-1, [BinStep.notFound])
termination_by (right + 1 - left).toNat
decreasing_by
  all_goals
    have h2 : 2 * ((left + right).fdiv 2) ≤ left + right ∧
        left + right < 2 * ((left + right).fdiv 2) + 2 := two_mul_fdiv_two_bounds _
    omega

/-- `binary_search(array, target)`: `left = 0`, `right = len(array) - 1`,
then the bisection loop with step numbers starting at 1. -/
def binary_search {α : Type} [LinearOrder α] [Inhabited α] (array : List α) (target : α) :
    Int × List (BinStep α) :=
  binGo array target 0 ((array.length : Int) - 1) 1

end SearchingAlgorithms

/-! ## sorting.py -/

namespace SortingAlgorithms

/-- Trace steps of `bubble_sort`, one constructor per `steps.append` site.
`swap x y` records the two swapped values as printed (`x` the larger, first in
the message); the array snapshot in the rendered message is the state at that
point and is not recorded separately. -/
inductive BubbleStep (α : Type) where
  | start (arr : List α)
  | pass (i : Nat)
  | swap (x y : α)
  | noSwaps
  | final (arr : List α)
deriving DecidableEq

/-- The inner loop `for j in range(0, n - i - 1)` of `bubble_sort` acting on
the list from position `j` onward, with the `Nat` argument the number of
remaining comparisons: swap adjacent elements when `arr[j] > arr[j+1]`,
tracking the sticky `swapped` flag and the swap trace lines. -/
def bubbleInner {α : Type} [LinearOrder α] : List α → Nat → List α × Bool × List (BubbleStep α)
  | l, 0 => (l, false, [])
  | [], _ + 1 => ([], false, [])
  | [a], _ + 1 => ([a], false, [])
  | a :: b :: rest, k + 1 =>
    if b < a then
      let (r, _, t) := bubbleInner (a :: rest) k
      (b :: r, true, BubbleStep.swap a b :: t)
    else
      let (r, sw, t) := bubbleInner (b :: rest) k
      (a :: r, sw, t)

/-- The outer loop `for i in range(n)` of `bubble_sort`.  The second argument
is the number of outer iterations still available (`n - i`), so the pass at
that point performs `n - i - 1` comparisons; the third is the 1-based pass
number printed in the header.  A pass with no swaps appends the
`noSwaps` line and breaks. -/
def bubbleGo {α : Type} [LinearOrder α] : List α → Nat → Nat → List α × List (BubbleStep α)
  | l, 0, _ => (l, [])
  | l, r + 1, i =>
    let (l2, sw, t) := bubbleInner l r
    if sw then
      let (l3, t2) := bubbleGo l2 r (i + 1)
      (l3, BubbleStep.pass i :: (t ++ t2))
    else
      (l2, BubbleStep.pass i :: (t ++ [BubbleStep.noSwaps]))

/-- `bubble_sort(array)`: works on a copy (modelled by value passing; see the
`Store` wrappers below for object identity), traces the starting array, runs
the passes, traces the final array, returns `(sorted_array, steps)`. -/
def bubble_sort {α : Type} [LinearOrder α] (array : List α) :
    List α × List (BubbleStep α) :=
  let (arr, t) := bubbleGo array array.length 1
  (arr, BubbleStep.start array :: (t ++ [BubbleStep.final arr]))

/-- Trace steps of `selection_sort`: a header per pass, then either a swap
line (recording post-swap `arr[i]` and `arr[min_idx]`, i.e. the minimum and
the displaced element) or an already-in-position line. -/
inductive SelStep (α : Type) where
  | start (arr : List α)
  | pass (i : Nat)
  | swap (minVal displaced : α)
  | inPlace (a : α)
  | final (arr : List α)
deriving DecidableEq

/-- The inner loop `for j in range(i + 1, n)` of `selection_sort`: carries the
current minimum value `m` (the source reads it back as `arr[min_idx]`), its
index `mi`, and the absolute index `j` of the next element. -/
def selMinVI {α : Type} [LinearOrder α] : α → Nat → Nat → List α → α × Nat
  | m, mi, _, [] => (m, mi)
  | m, mi, j, y :: ys =>
    if y < m then selMinVI y j (j + 1) ys else selMinVI m mi (j + 1) ys

/-- The outer loop of `selection_sort` over the suffix starting at absolute
index `i` (the prefix before `i` is already in final position and no longer
touched by the source).  Finds the minimum of the suffix; if its index
differs from `i`, swaps it with position `i` (`List.set` places the old head
at the minimum's position).  The first argument is a structural iteration
bound kept equal to the list length (a swap via `List.set` preserves length),
so the fuel-exhaustion branch is unreachable from `selGo`. -/
def selGoAux {α : Type} [LinearOrder α] : Nat → List α → Nat → List α × List (SelStep α)
  | _, [], _ => ([], [])
  | 0, x :: xs, _ => (x :: xs, [])
  | fuel + 1, x :: xs, i =>
    let vr := selMinVI x i (i + 1) xs
    if vr.2 ≠ i then
      let xs2 := xs.set (vr.2 - i - 1) x
      let (rest, t) := selGoAux fuel xs2 (i + 1)
      (vr.1 :: rest, SelStep.pass i :: SelStep.swap vr.1 x :: t)
    else
      let (rest, t) := selGoAux fuel xs (i + 1)
      (x :: rest, SelStep.pass i :: SelStep.inPlace x :: t)

/-- The outer loop of `selection_sort` starting at absolute index `i`. -/
def selGo {α : Type} [LinearOrder α] (l : List α) (i : Nat) : List α × List (SelStep α) :=
  selGoAux l.length l i

/-- `selection_sort(array)`: see `bubble_sort` for the copy convention. -/
def selection_sort {α : Type} [LinearOrder α] (array : List α) :
    List α × List (SelStep α) :=
  let (arr, t) := selGo array 0
  (arr, SelStep.start array :: (t ++ [SelStep.final arr]))

/-- Trace steps of `insertion_sort`: a header per pass recording the key, a
line per shifted element, and an insertion line (with the landing position
`j + 1`) or an already-in-position line. -/
inductive InsStep (α : Type) where
  | start (arr : List α)
  | pass (i : Nat) (key : α)
  | shifted (x : α)
  | inserted (key : α) (pos : Nat)
  | inPlace (key : α)
  | final (arr : List α)
deriving DecidableEq

/-- The `while j >= 0 and arr[j] > key` loop of `insertion_sort`, acting on
the REVERSED already-sorted prefix (head = rightmost element, the one at
index `j`): shift elements greater than the key, then place the key.
Returns the new reversed prefix (with the key placed) and the shifted
elements in shift order. -/
def insLoop {α : Type} [LinearOrder α] (key : α) : List α → List α × List α
  | [] => ([key], [])
  | x :: revPre =>
    if key < x then
      let (r, sh) := insLoop key revPre
      (x :: r, x :: sh)
    else (key :: x :: revPre, [])

/-- The outer loop `for i in range(1, n)` of `insertion_sort`: the reversed
sorted prefix `arr[0..i-1]`, the current index `i`, and the remaining
elements.  The landing position `j + 1` equals `i` minus the number of
shifts, and the source prints the in-place line exactly when `j + 1 == i`,
i.e. when no shift happened. -/
def insGo {α : Type} [LinearOrder α] : List α → Nat → List α → List α × List (InsStep α)
  | pre, _, [] => (pre.reverse, [])
  | pre, i, key :: rest =>
    let (pre2, sh) := insLoop key pre
    let (res, t) := insGo pre2 (i + 1) rest
    (res,
      (InsStep.pass i key :: sh.map InsStep.shifted ++
        [if sh = [] then InsStep.inPlace key else InsStep.inserted key (i - sh.length)]) ++ t)

/-- Whether a bubble-sort trace step is a pass header. -/
def isPassStep {α : Type} : BubbleStep α → Bool
  | BubbleStep.pass _ => true
  | _ => false

/-- `insertion_sort(array)`: see `bubble_sort` for the copy convention.  The
loop starts at index 1 with the singleton prefix `[arr[0]]`; on an empty
array it does not run at all. -/
def insertion_sort {α : Type} [LinearOrder α] (array : List α) :
    List α × List (InsStep α) :=
  match array with
  | [] => ([], [InsStep.start [], InsStep.final []])
  | x :: rest =>
    let (arr, t) := insGo [x] 1 rest
    (arr, InsStep.start (x :: rest) :: (t ++ [InsStep.final arr]))

end SortingAlgorithms

/-! ## Object identity

Python lists are mutable objects passed by reference.  To state the
frame/no-mutation contract we model a store of list objects: references are
naturals, `alloc` models `list.copy()` (a fresh object with equal contents),
`write` models in-place mutation of one object.  Each `*_call` wrapper runs
one core operation at the object level: the source of the three sorts mutates
only the private copy `arr` (every assignment in the loops targets `arr`), so
the loop block is the pure contents transformation followed by the write-back
of `arr`; the two searches never assign to any list, so they leave the store
untouched. -/

structure Store (α : Type) where
  mem : Nat → List α
  next : Nat

/-- Mutation of the object at reference `r`. -/
def Store.write {α : Type} (σ : Store α) (r : Nat) (l : List α) : Store α :=
  { σ with mem := fun i => if i = r then l else σ.mem i }

/-- Allocation of a fresh object holding `l` (models `array.copy()`). -/
def Store.alloc {α : Type} (σ : Store α) (l : List α) : Store α × Nat :=
  ({ mem := fun i => if i = σ.next then l else σ.mem i, next := σ.next + 1 }, σ.next)

namespace SortingAlgorithms

/-- Object-level `bubble_sort`: copy the caller's array, run the passes on
the copy, return the copy's reference and the trace. -/
def bubble_sort_call {α : Type} [LinearOrder α] (σ : Store α) (array : Nat) :
    Store α × Nat × List (BubbleStep α) :=
  let (σ1, arr) := σ.alloc (σ.mem array)
  let rt := bubble_sort (σ1.mem arr)
  (σ1.write arr rt.1, arr, rt.2)

/-- Object-level `selection_sort`. -/
def selection_sort_call {α : Type} [LinearOrder α] (σ : Store α) (array : Nat) :
    Store α × Nat × List (SelStep α) :=
  let (σ1, arr) := σ.alloc (σ.mem array)
  let rt := selection_sort (σ1.mem arr)
  (σ1.write arr rt.1, arr, rt.2)

/-- Object-level `insertion_sort`. -/
def insertion_sort_call {α : Type} [LinearOrder α] (σ : Store α) (array : Nat) :
    Store α × Nat × List (InsStep α) :=
  let (σ1, arr) := σ.alloc (σ.mem array)
  let rt := insertion_sort (σ1.mem arr)
  (σ1.write arr rt.1, arr, rt.2)

end SortingAlgorithms

namespace SearchingAlgorithms

/-- Object-level `linear_search`: reads the array, writes nothing. -/
def linear_search_call {α : Type} [DecidableEq α] (σ : Store α) (array : Nat) (target : α) :
    Store α × Int × List (LinStep α) :=
  (σ, linear_search (σ.mem array) target)

/-- Object-level `binary_search`: reads the array, writes nothing. -/
def binary_search_call {α : Type} [LinearOrder α] [Inhabited α] (σ : Store α) (array : Nat)
    (target : α) : Store α × Int × List (BinStep α) :=
  (σ, binary_search (σ.mem array) target)

end SearchingAlgorithms

/-! ## Spec-side definitions for the radix claims -/

namespace NumberSystemConverter

/-- Modelled from the spec: the fixed digit alphabet of each supported base
(`0-1`, `0-7`, `0-9`, `0-9A-F` case-insensitive for hexadecimal). -/
def alphabet (b : Nat) : List Char :=
  match b with
  | 2 => ['0', '1']
  | 8 => ['0', '1', '2', '3', '4', '5', '6', '7']
  | 10 => ['0', '1', '2', '3', '4', '5', '6', '7', '8', '9']
  | 16 => hexChars ++ ['a', 'b', 'c', 'd', 'e', 'f']
  | _ => []

/-- The digit part of a literal: the characters after an optional leading
minus sign. -/
def digitPart (L : List Char) : List Char :=
  if L.head? = some '-' then L.tail else L

/-- Whether a literal carries the optional leading minus sign. -/
def isNeg (L : List Char) : Bool :=
  L.head? = some '-'

/-- Modelled from the spec: a valid literal in base `b` is an optional
leading minus followed by at least one character, every character drawn from
the base's digit alphabet (case-insensitive for hexadecimal). -/
def ValidLit (b : Nat) (L : List Char) : Prop :=
  digitPart L ≠ [] ∧ ∀ c ∈ digitPart L, c ∈ alphabet b

instance (b : Nat) (L : List Char) : Decidable (ValidLit b L) := by
  unfold ValidLit; infer_instance

/-- Modelled from the spec: the normal form of a literal — leading zeros
stripped, the sign preserved, digits in the canonical (upper-case) alphabet,
and `"0"` (unsigned) as the normal form of every spelling of zero. -/
def normalize (L : List Char) : List Char :=
  let ds := ((digitPart L).map Char.toUpper).dropWhile (· == '0')
  if ds = [] then ['0']
  else if isNeg L then '-' :: ds else ds

/-- The canonical digit character of a digit value, `hex_chars[d]`. -/
def charOfDigit (d : Nat) : Char := hexChars.getD d '0'

/-- The numeric value of a digit character of base `b` (the value computed by
the base's parser: `int(digit)` for bases 2, 8, 10 and `hex_chars.index` of
the upper-cased character for base 16). -/
def valOf (b : Nat) (c : Char) : Nat :=
  if b = 16 then hexChars.indexOf c.toUpper else c.toNat - 48

/-- Sign attachment: the integer value of a magnitude with an optional
negative sign. -/
def signedVal (neg : Bool) (m : Nat) : Int := if neg then -(m : Int) else (m : Int)

/-- The integer value denoted by a literal in base `b`: the positional value
of its digit part with the sign attached. -/
def litVal (b : Nat) (L : List Char) : Int :=
  signedVal (isNeg L) (Nat.ofDigits b (((digitPart L).map (valOf b)).reverse))

/-- Description of one supported base for the round-trip proof: the base, its
digit-validation function `dv`, the preprocessing applied to each character
before validation (`up`, the identity except for hexadecimal upper-casing),
its literal alphabet `A`, and the digit-value function `val`, together with
the facts relating them that each of the four bases satisfies (verified by
`decide` in the instances below). -/
structure BaseSpec where
  b : Nat
  dv : Char → Option Nat
  up : Char → Char
  A : List Char
  val : Char → Nat
  hb : 2 ≤ b
  hup_minus : up '-' = '-'
  hdv : ∀ c ∈ A, dv (up c) = some (val c)
  hlt : ∀ c ∈ A, val c < b
  hcanon : ∀ c ∈ A, charOfDigit (val c) = c.toUpper
  hzero : ∀ c ∈ A, (val c = 0 ↔ c = '0')
  hnsp : ∀ c ∈ A, c ≠ ' '
  hnm : ∀ c ∈ A, up c ≠ '-'
  hrd : ∀ d, d < b → dv (up (charOfDigit d)) = some d
  hrd_nsp : ∀ d, d < b → charOfDigit d ≠ ' '
  hrd_nm : ∀ d, d < b → up (charOfDigit d) ≠ '-'

/-- Base description for binary. -/
def bs2 : BaseSpec where
  b := 2
  dv := dv2
  up := id
  A := alphabet 2
  val := fun c => c.toNat - 48
  hb := by norm_num
  hup_minus := rfl
  hdv := by decide
  hlt := by decide
  hcanon := by decide
  hzero := by decide
  hnsp := by decide
  hnm := by decide
  hrd := by decide
  hrd_nsp := by decide
  hrd_nm := by decide

/-- Base description for octal. -/
def bs8 : BaseSpec where
  b := 8
  dv := dv8
  up := id
  A := alphabet 8
  val := fun c => c.toNat - 48
  hb := by norm_num
  hup_minus := rfl
  hdv := by decide
  hlt := by decide
  hcanon := by decide
  hzero := by decide
  hnsp := by decide
  hnm := by decide
  hrd := by decide
  hrd_nsp := by decide
  hrd_nm := by decide

/-- Base description for decimal (the digit layer under Python `int`). -/
def bs10 : BaseSpec where
  b := 10
  dv := dv10
  up := id
  A := alphabet 10
  val := fun c => c.toNat - 48
  hb := by norm_num
  hup_minus := rfl
  hdv := by decide
  hlt := by decide
  hcanon := by decide
  hzero := by decide
  hnsp := by decide
  hnm := by decide
  hrd := by decide
  hrd_nsp := by decide
  hrd_nm := by decide

/-- Base description for hexadecimal. -/
def bs16 : BaseSpec where
  b := 16
  dv := dvHex
  up := Char.toUpper
  A := alphabet 16
  val := fun c => hexChars.indexOf c.toUpper
  hb := by norm_num
  hup_minus := rfl
  hdv := by decide
  hlt := by decide
  hcanon := by decide
  hzero := by decide
  hnsp := by decide
  hnm := by decide
  hrd := by decide
  hrd_nsp := by decide
  hrd_nm := by decide

/-- The common parser shape: space removal, per-character preprocessing,
sign detection and positional summation.  `binary_to_decimal`,
`octal_to_decimal` and `hexadecimal_to_decimal` are its instances at `bs2`,
`bs8` and `bs16`. -/
def parseGen (S : BaseSpec) (s : List Char) : Option Int :=
  strToDecimal S.b S.dv ((s.filter (fun c => c ≠ ' ')).map S.up)

end NumberSystemConverter

/-! ## Helper lemmas: linear search -/

namespace SearchingAlgorithms

theorem linGo_absent {α : Type} [DecidableEq α] (t : α) :
    ∀ (a : List α) (i : Nat), t ∉ a →
      (linGo t a i).1 = -1 ∧ (linGo t a i).2.getLast? = some LinStep.notFound ∧
      (linGo t a i).2.length = a.length + 1
  | [], i, _ => by simp [linGo]
  | x :: rest, i, h => by
    have hx : ¬ x = t := fun hxt => h (hxt ▸ List.mem_cons_self x rest)
    obtain ⟨h1, h2, h3⟩ := linGo_absent t rest (i + 1) (fun hm => h (List.mem_cons_of_mem x hm))
    cases hgo : linGo t rest (i + 1) with
    | mk res tr =>
      rw [hgo] at h1 h2 h3
      simp only [linGo, if_neg hx, hgo]
      refine ⟨h1, ?_, by simp only [List.length_cons, List.length_cons] at h3 ⊢; omega⟩
      have htr : tr ≠ [] := by
        intro hnil
        rw [hnil] at h3
        simp at h3
      cases tr with
      | nil => exact absurd rfl htr
      | cons s ss => rw [List.getLast?_cons_cons]; exact h2

theorem linGo_first {α : Type} [DecidableEq α] (t : α) :
    ∀ (a : List α) (i : Nat), t ∈ a →
      ∃ k, (linGo t a i).1 = ((i + k : Nat) : Int) ∧ k < a.length ∧
        a.getD k t = t ∧ ∀ j < k, a.getD j t ≠ t
  | [], _, h => absurd h (List.not_mem_nil t)
  | x :: rest, i, h => by
    by_cases hx : x = t
    · refine ⟨0, ?_, by simp, by simpa using hx, by omega⟩
      simp [linGo, hx]
    · have hmem : t ∈ rest := (List.mem_cons.mp h).resolve_left (fun e => hx e.symm)
      obtain ⟨k, h1, h2, h3, h4⟩ := linGo_first t rest (i + 1) hmem
      refine ⟨k + 1, ?_, by simpa using h2, by simpa using h3, ?_⟩
      · cases hgo : linGo t rest (i + 1) with
        | mk res tr =>
          rw [hgo] at h1
          simp only [linGo, if_neg hx, hgo]
          rw [show i + (k + 1) = i + 1 + k from by omega]
          exact h1
      · intro j hj
        cases j with
        | zero => simpa using hx
        | succ m => simpa using h4 m (by omega)

end SearchingAlgorithms

/-! ## Helper lemmas: bubble sort on sorted input -/

namespace SortingAlgorithms

theorem bubbleInner_sorted {α : Type} [LinearOrder α] :
    ∀ (k : Nat) (l : List α), l.Sorted (· ≤ ·) → bubbleInner l k = (l, false, [])
  | 0, l, _ => by cases l with
    | nil => rfl
    | cons a l => cases l with
      | nil => rfl
      | cons b r => rfl
  | _ + 1, [], _ => rfl
  | _ + 1, [a], _ => rfl
  | k + 1, a :: b :: rest, h => by
    have hab : a ≤ b := List.rel_of_sorted_cons h b (List.mem_cons_self b rest)
    have ih := bubbleInner_sorted k (b :: rest) h.of_cons
    simp only [bubbleInner, if_neg (not_lt.mpr hab), ih]

theorem bubbleGo_sorted (n i : Nat) {α : Type} [LinearOrder α] (l : List α)
    (h : l.Sorted (· ≤ ·)) :
    bubbleGo l (n + 1) i = (l, [BubbleStep.pass i, BubbleStep.noSwaps]) := by
  simp only [bubbleGo, bubbleInner_sorted n l h]
  simp

end SortingAlgorithms

/-! ## Helper lemmas: bubble sort correctness -/

namespace SortingAlgorithms

theorem bubbleInner_zero {α : Type} [LinearOrder α] (l : List α) :
    bubbleInner l 0 = (l, false, []) := by
  cases l with
  | nil => rfl
  | cons a t => cases t with
    | nil => rfl
    | cons b r => rfl

theorem bubbleInner_perm {α : Type} [LinearOrder α] :
    ∀ (k : Nat) (l : List α), (bubbleInner l k).1 ~ l
  | 0, l => by rw [bubbleInner_zero]
  | _ + 1, [] => by simp [bubbleInner]
  | _ + 1, [a] => by simp [bubbleInner]
  | k + 1, a :: b :: rest => by
    by_cases hab : b < a
    · have ih := bubbleInner_perm k (a :: rest)
      simp only [bubbleInner, if_pos hab]
      cases hin : bubbleInner (a :: rest) k with
      | mk r st =>
        rw [hin] at ih
        simp only [hin]
        calc b :: r ~ b :: a :: rest := ih.cons b
          _ ~ a :: b :: rest := List.Perm.swap a b rest
    · have ih := bubbleInner_perm k (b :: rest)
      simp only [bubbleInner, if_neg hab]
      cases hin : bubbleInner (b :: rest) k with
      | mk r st =>
        rw [hin] at ih
        simp only [hin]
        exact ih.cons a

theorem bubbleInner_drop {α : Type} [LinearOrder α] :
    ∀ (k : Nat) (l : List α), (bubbleInner l k).1.drop (k + 1) = l.drop (k + 1)
  | 0, l => by rw [bubbleInner_zero]
  | _ + 1, [] => by simp [bubbleInner]
  | _ + 1, [a] => by simp [bubbleInner]
  | k + 1, a :: b :: rest => by
    by_cases hab : b < a
    · have ih := bubbleInner_drop k (a :: rest)
      simp only [bubbleInner, if_pos hab]
      cases hin : bubbleInner (a :: rest) k with
      | mk r st =>
        rw [hin] at ih
        simp only [hin]
        simp only [List.drop_succ_cons] at ih ⊢
        exact ih
    · have ih := bubbleInner_drop k (b :: rest)
      simp only [bubbleInner, if_neg hab]
      cases hin : bubbleInner (b :: rest) k with
      | mk r st =>
        rw [hin] at ih
        simp only [hin]
        simp only [List.drop_succ_cons] at ih ⊢
        exact ih

theorem bubbleInner_take_perm {α : Type} [LinearOrder α] (k : Nat) (l : List α) :
    (bubbleInner l k).1.take (k + 1) ~ l.take (k + 1) := by
  have hp := bubbleInner_perm k l
  have hd := bubbleInner_drop k l
  have h1 : (bubbleInner l k).1.take (k + 1) ++ (bubbleInner l k).1.drop (k + 1) ~
      l.take (k + 1) ++ l.drop (k + 1) := by
    rw [List.take_append_drop, List.take_append_drop]
    exact hp
  rw [hd] at h1
  exact (List.perm_append_right_iff _).mp h1

theorem bubbleInner_take_max {α : Type} [LinearOrder α] :
    ∀ (k : Nat) (l : List α), ∀ x ∈ (bubbleInner l k).1.take (k + 1),
      ∀ y, ((bubbleInner l k).1.take (k + 1)).getLast? = some y → x ≤ y
  | 0, l => by
    rw [bubbleInner_zero]
    intro x hx y hy
    cases l with
    | nil => simp at hx
    | cons c t =>
      simp only [List.take_succ_cons, List.take_zero] at hx hy
      simp only [List.mem_singleton] at hx
      simp only [List.getLast?_singleton, Option.some.injEq] at hy
      rw [hx, ← hy]
  | _ + 1, [] => by intro x hx; simp [bubbleInner] at hx
  | k + 1, [a] => by
    intro x hx y hy
    simp only [bubbleInner] at hx hy
    simp only [List.take_succ_cons, List.take_nil, List.mem_singleton] at hx
    simp only [List.take_succ_cons, List.take_nil, List.getLast?_singleton,
      Option.some.injEq] at hy
    rw [hx, ← hy]
  | k + 1, a :: b :: rest => by
    by_cases hab : b < a
    · have ihmax := bubbleInner_take_max k (a :: rest)
      have ihtp := bubbleInner_take_perm k (a :: rest)
      have ihp := bubbleInner_perm k (a :: rest)
      simp only [bubbleInner, if_pos hab]
      cases hin : bubbleInner (a :: rest) k with
      | mk r st =>
        rw [hin] at ihmax ihtp ihp
        simp only [hin]
        intro x hx y hy
        have hrne : r ≠ [] := by
          intro h0
          rw [h0] at ihp
          exact absurd ihp.symm (List.cons_ne_nil a rest ∘ List.Perm.eq_nil)
        obtain ⟨rh, rt, hr⟩ : ∃ rh rt, r.take (k + 1) = rh :: rt := by
          cases hrr : r with
          | nil => exact absurd hrr hrne
          | cons q qs => exact ⟨q, qs.take k, by simp⟩
        rw [List.take_succ_cons, hr] at hx hy
        rw [List.getLast?_cons_cons] at hy
        have hall : ∀ z ∈ rh :: rt, z ≤ y := by
          intro z hz
          exact ihmax z (hr ▸ hz) y (hr ▸ hy)
        have ha_mem : a ∈ rh :: rt := by
          rw [← hr]
          exact (ihtp.mem_iff).mpr (by simp [List.take_succ_cons])
        have hay : a ≤ y := hall a ha_mem
        rcases List.mem_cons.mp hx with hxb | hxr
        · exact hxb ▸ ((le_of_lt hab).trans hay)
        · exact hall x hxr
    · have ihmax := bubbleInner_take_max k (b :: rest)
      have ihtp := bubbleInner_take_perm k (b :: rest)
      have ihp := bubbleInner_perm k (b :: rest)
      simp only [bubbleInner, if_neg hab]
      cases hin : bubbleInner (b :: rest) k with
      | mk r st =>
        rw [hin] at ihmax ihtp ihp
        simp only [hin]
        intro x hx y hy
        have hrne : r ≠ [] := by
          intro h0
          rw [h0] at ihp
          exact absurd ihp.symm (List.cons_ne_nil b rest ∘ List.Perm.eq_nil)
        obtain ⟨rh, rt, hr⟩ : ∃ rh rt, r.take (k + 1) = rh :: rt := by
          cases hrr : r with
          | nil => exact absurd hrr hrne
          | cons q qs => exact ⟨q, qs.take k, by simp⟩
        rw [List.take_succ_cons, hr] at hx hy
        rw [List.getLast?_cons_cons] at hy
        have hall : ∀ z ∈ rh :: rt, z ≤ y := by
          intro z hz
          exact ihmax z (hr ▸ hz) y (hr ▸ hy)
        have hb_mem : b ∈ rh :: rt := by
          rw [← hr]
          exact (ihtp.mem_iff).mpr (by simp [List.take_succ_cons])
        have hby : b ≤ y := hall b hb_mem
        rcases List.mem_cons.mp hx with hxa | hxr
        · exact hxa ▸ ((not_lt.mp hab).trans hby)
        · exact hall x hxr

theorem bubbleInner_noswap {α : Type} [LinearOrder α] :
    ∀ (k : Nat) (l : List α), (bubbleInner l k).2.1 = false →
      (bubbleInner l k).1 = l ∧ (l.take (k + 1)).Sorted (· ≤ ·)
  | 0, l => fun _ => by
    rw [bubbleInner_zero]
    refine ⟨rfl, ?_⟩
    cases l with
    | nil => simp
    | cons c t => simp
  | _ + 1, [] => fun _ => ⟨rfl, by simp⟩
  | _ + 1, [a] => fun _ => ⟨rfl, by simp⟩
  | k + 1, a :: b :: rest => fun hsw => by
    by_cases hab : b < a
    · exfalso
      revert hsw
      simp only [bubbleInner, if_pos hab]
      cases hin : bubbleInner (a :: rest) k with
      | mk r st => simp
    · have hba : a ≤ b := not_lt.mp hab
      have hsw2 : (bubbleInner (b :: rest) k).2.1 = false := by
        revert hsw
        simp only [bubbleInner, if_neg hab]
        cases hin : bubbleInner (b :: rest) k with
        | mk r st =>
          cases st with
          | mk sw tr => intro h; simpa using h
      obtain ⟨heq, hsort⟩ := bubbleInner_noswap k (b :: rest) hsw2
      constructor
      · simp only [bubbleInner, if_neg hab]
        cases hin : bubbleInner (b :: rest) k with
        | mk r st =>
          rw [hin] at heq
          simp only [hin]
          simp only at heq
          rw [heq]
      · rw [List.take_succ_cons]
        refine List.sorted_cons.mpr ⟨?_, hsort⟩
        intro z hz
        rw [List.take_succ_cons] at hz hsort
        rcases List.mem_cons.mp hz with h | h
        · exact h ▸ hba
        · exact hba.trans (List.rel_of_sorted_cons hsort z h)

theorem bubbleGo_sorted_perm {α : Type} [LinearOrder α] :
    ∀ (r : Nat) (l : List α) (i : Nat),
      (l.drop r).Sorted (· ≤ ·) → (∀ x ∈ l.take r, ∀ y ∈ l.drop r, x ≤ y) →
      (bubbleGo l r i).1 ~ l ∧ ((bubbleGo l r i).1).Sorted (· ≤ ·)
  | 0, l, i => fun hs _ => ⟨List.Perm.refl l, by simpa using hs⟩
  | r + 1, l, i => fun hs hcross => by
    have hperm := bubbleInner_perm r l
    have hdrop := bubbleInner_drop r l
    have htp := bubbleInner_take_perm r l
    have hmax := bubbleInner_take_max r l
    cases hin : bubbleInner l r with
    | mk l2 st =>
      cases st with
      | mk sw tr =>
        rw [hin] at hperm hdrop htp hmax
        simp only at hperm hdrop htp hmax
        have hinv : (l2.drop r).Sorted (· ≤ ·) ∧
            ∀ x ∈ l2.take r, ∀ y ∈ l2.drop r, x ≤ y := by
          by_cases hr : r < l2.length
          · have hdr := List.drop_eq_getElem_cons hr
            have htl : (l2.take (r + 1)).getLast? = some (l2.get ⟨r, hr⟩) := by
              rw [List.take_succ, List.getElem?_eq_getElem hr]
              exact List.getLast?_concat _
            have hmem_r : l2.get ⟨r, hr⟩ ∈ l2.take (r + 1) := by
              rw [List.take_succ, List.getElem?_eq_getElem hr]
              exact List.mem_append_right _ (List.mem_singleton_self _)
            constructor
            · rw [hdr, hdrop]
              refine List.sorted_cons.mpr ⟨?_, hs⟩
              intro y hy
              exact hcross _ ((htp.mem_iff).mp hmem_r) y hy
            · intro x hx y hy
              rw [hdr] at hy
              rcases List.mem_cons.mp hy with hye | hyd
              · subst hye
                refine hmax x ?_ _ htl
                rw [List.take_succ]
                exact List.mem_append_left _ hx
              · rw [hdrop] at hyd
                refine hcross x ?_ y hyd
                refine (htp.mem_iff).mp ?_
                rw [List.take_succ]
                exact List.mem_append_left _ hx
          · push_neg at hr
            constructor
            · rw [List.drop_eq_nil_of_le hr]
              exact List.sorted_nil
            · intro x hx y hy
              rw [List.drop_eq_nil_of_le hr] at hy
              simp at hy
        by_cases hswc : sw = true
        · subst hswc
          have ih := bubbleGo_sorted_perm r l2 (i + 1) hinv.1 hinv.2
          cases hgo2 : bubbleGo l2 r (i + 1) with
          | mk l3 t2 =>
            rw [hgo2] at ih
            simp only [bubbleGo, hin, hgo2, if_true]
            exact ⟨ih.1.trans hperm, ih.2⟩
        · have hswf : sw = false := by
            cases sw with
            | true => exact absurd rfl hswc
            | false => rfl
          subst hswf
          have hns := bubbleInner_noswap r l (by rw [hin])
          obtain ⟨hl2, htake⟩ := hns
          rw [hin] at hl2
          simp only at hl2
          simp only [bubbleGo, hin, if_false]
          subst hl2
          refine ⟨List.Perm.refl _, ?_⟩
          rw [← List.take_append_drop (r + 1) l2]
          refine List.pairwise_append.mpr ⟨htake, hs, ?_⟩
          intro x hx y hy
          exact hcross x hx y hy

theorem bubble_sort_sorted_perm {α : Type} [LinearOrder α] (l : List α) :
    (bubble_sort l).1 ~ l ∧ ((bubble_sort l).1).Sorted (· ≤ ·) := by
  have h := bubbleGo_sorted_perm l.length l 1 (by simp) (by
    intro x hx y hy
    simp [List.drop_length] at hy)
  cases hgo : bubbleGo l l.length 1 with
  | mk arr tr =>
    rw [hgo] at h
    simp only [bubble_sort, hgo]
    exact h

/-! ## Helper lemmas: selection sort correctness -/

theorem selMinVI_min {α : Type} [LinearOrder α] :
    ∀ (ys : List α) (m : α) (mi j : Nat),
      (selMinVI m mi j ys).1 ≤ m ∧ ∀ y ∈ ys, (selMinVI m mi j ys).1 ≤ y
  | [], m, mi, j => ⟨le_rfl, by simp⟩
  | y :: ys, m, mi, j => by
    by_cases hy : y < m
    · obtain ⟨h1, h2⟩ := selMinVI_min ys y j (j + 1)
      simp only [selMinVI, if_pos hy]
      refine ⟨h1.trans hy.le, ?_⟩
      intro z hz
      rcases List.mem_cons.mp hz with rfl | hz2
      · exact h1
      · exact h2 z hz2
    · obtain ⟨h1, h2⟩ := selMinVI_min ys m mi (j + 1)
      simp only [selMinVI, if_neg hy]
      refine ⟨h1, ?_⟩
      intro z hz
      rcases List.mem_cons.mp hz with rfl | hz2
      · exact h1.trans (not_lt.mp hy)
      · exact h2 z hz2

theorem selMinVI_at {α : Type} [LinearOrder α] :
    ∀ (ys : List α) (m : α) (mi j : Nat),
      selMinVI m mi j ys = (m, mi) ∨
      (j ≤ (selMinVI m mi j ys).2 ∧ (selMinVI m mi j ys).2 - j < ys.length ∧
        ∀ d, ys.getD ((selMinVI m mi j ys).2 - j) d = (selMinVI m mi j ys).1)
  | [], m, mi, j => Or.inl rfl
  | y :: ys, m, mi, j => by
    by_cases hy : y < m
    · simp only [selMinVI, if_pos hy]
      rcases selMinVI_at ys y j (j + 1) with heq | ⟨hj, hlen, hget⟩
      · right
        rw [heq]
        exact ⟨le_rfl, by simp, by intro d; simp⟩
      · right
        refine ⟨by omega, by simp only [List.length_cons]; omega, ?_⟩
        intro d
        rw [show (selMinVI y j (j + 1) ys).2 - j =
          ((selMinVI y j (j + 1) ys).2 - (j + 1)) + 1 from by omega]
        simp only [List.getD_cons_succ]
        exact hget d
    · simp only [selMinVI, if_neg hy]
      rcases selMinVI_at ys m mi (j + 1) with heq | ⟨hj, hlen, hget⟩
      · left
        exact heq
      · right
        refine ⟨by omega, by simp only [List.length_cons]; omega, ?_⟩
        intro d
        rw [show (selMinVI m mi (j + 1) ys).2 - j =
          ((selMinVI m mi (j + 1) ys).2 - (j + 1)) + 1 from by omega]
        simp only [List.getD_cons_succ]
        exact hget d

theorem cons_set_perm {α : Type} :
    ∀ (xs : List α) (p : Nat) (x d : α), p < xs.length →
      xs.getD p d :: xs.set p x ~ x :: xs
  | [], p, x, d => by intro h; simp at h
  | a :: xs, 0, x, d => by
    intro _
    simp only [List.getD_cons_zero, List.set_cons_zero]
    exact List.Perm.swap x a xs
  | a :: xs, p + 1, x, d => by
    intro h
    simp only [List.getD_cons_succ, List.set_cons_succ]
    have ih := cons_set_perm xs p x d (by simp only [List.length_cons] at h; omega)
    calc xs.getD p d :: a :: xs.set p x
        ~ a :: xs.getD p d :: xs.set p x := List.Perm.swap a (xs.getD p d) _
      _ ~ a :: (x :: xs) := ih.cons a
      _ ~ x :: a :: xs := List.Perm.swap x a xs

theorem selGoAux_sorted_perm {α : Type} [LinearOrder α] :
    ∀ (fuel : Nat) (l : List α) (i : Nat), l.length = fuel →
      (selGoAux fuel l i).1 ~ l ∧ ((selGoAux fuel l i).1).Sorted (· ≤ ·)
  | fuel, [], i => fun _ => by
    cases fuel with
    | zero => exact ⟨List.Perm.refl _, List.sorted_nil⟩
    | succ f => exact ⟨List.Perm.refl _, List.sorted_nil⟩
  | 0, x :: xs, i => fun h => by simp at h
  | fuel + 1, x :: xs, i => fun hlen => by
    have hxs : xs.length = fuel := by simpa using hlen
    cases hmv : selMinVI x i (i + 1) xs with
    | mk v r =>
      obtain ⟨hminx, hminall⟩ := selMinVI_min xs x i (i + 1)
      have hat := selMinVI_at xs x i (i + 1)
      rw [hmv] at hminx hminall hat
      simp only at hminx hminall hat
      by_cases hri : r ≠ i
      · rcases hat with heq | ⟨hj, hlt, hget⟩
        · exact absurd (congrArg Prod.snd heq) (by simpa using hri)
        · have hgetx : xs.getD (r - i - 1) x = v := by
            rw [show r - i - 1 = r - (i + 1) from by omega]
            exact hget x
          have hperm : v :: xs.set (r - i - 1) x ~ x :: xs := by
            have hp := cons_set_perm xs (r - i - 1) x x
              (by rw [show r - i - 1 = r - (i + 1) from by omega]; exact hlt)
            rw [hgetx] at hp
            exact hp
          have ih := selGoAux_sorted_perm fuel (xs.set (r - i - 1) x) (i + 1)
            (by simp [hxs])
          cases hgo : selGoAux fuel (xs.set (r - i - 1) x) (i + 1) with
          | mk rest t =>
            rw [hgo] at ih
            simp only at ih
            simp only [selGoAux, hmv, if_pos hri, hgo]
            refine ⟨(ih.1.cons v).trans hperm, ?_⟩
            refine List.sorted_cons.mpr ⟨?_, ih.2⟩
            intro z hz
            have hz2 : z ∈ xs.set (r - i - 1) x := (ih.1.mem_iff).mp hz
            have hz3 : z ∈ x :: xs := hperm.subset (List.mem_cons_of_mem v hz2)
            rcases List.mem_cons.mp hz3 with rfl | hz4
            · exact hminx
            · exact hminall z hz4
      · push_neg at hri
        have hvx : v = x := by
          rcases hat with heq | ⟨hj, _, _⟩
          · exact congrArg Prod.fst heq
          · omega
        have ih := selGoAux_sorted_perm fuel xs (i + 1) hxs
        cases hgo : selGoAux fuel xs (i + 1) with
        | mk rest t =>
          rw [hgo] at ih
          simp only at ih
          simp only [selGoAux, hmv, if_neg (by simpa using hri : ¬ r ≠ i), hgo]
          refine ⟨ih.1.cons x, List.sorted_cons.mpr ⟨?_, ih.2⟩⟩
          intro z hz
          have hz2 : z ∈ xs := (ih.1.mem_iff).mp hz
          have := hminall z hz2
          rw [hvx] at this
          exact this

theorem selection_sort_sorted_perm {α : Type} [LinearOrder α] (l : List α) :
    (selection_sort l).1 ~ l ∧ ((selection_sort l).1).Sorted (· ≤ ·) := by
  have h := selGoAux_sorted_perm l.length l 0 rfl
  cases hgo : selGoAux l.length l 0 with
  | mk arr tr =>
    rw [hgo] at h
    simp only [selection_sort, selGo, hgo]
    exact h

/-! ## Helper lemmas: insertion sort correctness -/

theorem insLoop_sorted_perm {α : Type} [LinearOrder α] (key : α) :
    ∀ (rev : List α), rev.Sorted (· ≥ ·) →
      ((insLoop key rev).1).Sorted (· ≥ ·) ∧ (insLoop key rev).1 ~ key :: rev
  | [], _ => ⟨List.sorted_singleton key, List.Perm.refl _⟩
  | x :: rev, h => by
    by_cases hx : key < x
    · obtain ⟨ih1, ih2⟩ := insLoop_sorted_perm key rev h.of_cons
      cases hloop : insLoop key rev with
      | mk nr sh =>
        rw [hloop] at ih1 ih2
        simp only at ih1 ih2
        simp only [insLoop, if_pos hx, hloop]
        constructor
        · refine List.sorted_cons.mpr ⟨?_, ih1⟩
          intro z hz
          have hz2 : z ∈ key :: rev := ih2.subset hz
          rcases List.mem_cons.mp hz2 with rfl | hz3
          · exact hx.le
          · exact List.rel_of_sorted_cons h z hz3
        · calc x :: nr ~ x :: key :: rev := ih2.cons x
            _ ~ key :: x :: rev := List.Perm.swap key x rev
    · simp only [insLoop, if_neg hx]
      have hxk : x ≤ key := not_lt.mp hx
      refine ⟨List.sorted_cons.mpr ⟨?_, h⟩, List.Perm.refl _⟩
      intro z hz
      rcases List.mem_cons.mp hz with rfl | hz2
      · exact hxk
      · exact (List.rel_of_sorted_cons h z hz2).trans hxk

theorem insGo_sorted_perm {α : Type} [LinearOrder α] :
    ∀ (rest : List α) (pre : List α) (i : Nat), pre.Sorted (· ≥ ·) →
      ((insGo pre i rest).1).Sorted (· ≤ ·) ∧ (insGo pre i rest).1 ~ pre.reverse ++ rest
  | [], pre, i => fun h => by
    simp only [insGo]
    exact ⟨List.pairwise_reverse.mpr h, by simp⟩
  | key :: rest, pre, i => fun h => by
    obtain ⟨hl1, hl2⟩ := insLoop_sorted_perm key pre h
    cases hloop : insLoop key pre with
    | mk pre2 sh =>
      rw [hloop] at hl1 hl2
      simp only at hl1 hl2
      obtain ⟨ih1, ih2⟩ := insGo_sorted_perm rest pre2 (i + 1) hl1
      cases hgo : insGo pre2 (i + 1) rest with
      | mk res t =>
        rw [hgo] at ih1 ih2
        simp only at ih1 ih2
        simp only [insGo, hloop, hgo]
        refine ⟨ih1, ?_⟩
        calc res ~ pre2.reverse ++ rest := ih2
          _ ~ pre2 ++ rest := (List.reverse_perm pre2).append_right rest
          _ ~ (key :: pre) ++ rest := hl2.append_right rest
          _ = key :: (pre ++ rest) := rfl
          _ ~ key :: (pre.reverse ++ rest) :=
            ((List.reverse_perm pre).symm.append_right rest).cons key
          _ ~ pre.reverse ++ key :: rest := List.perm_middle.symm

theorem insertion_sort_sorted_perm {α : Type} [LinearOrder α] (l : List α) :
    (insertion_sort l).1 ~ l ∧ ((insertion_sort l).1).Sorted (· ≤ ·) := by
  cases l with
  | nil => exact ⟨List.Perm.refl _, List.sorted_nil⟩
  | cons x rest =>
    obtain ⟨h1, h2⟩ := insGo_sorted_perm rest [x] 1 (List.sorted_singleton x)
    cases hgo : insGo [x] 1 rest with
    | mk res t =>
      rw [hgo] at h1 h2
      simp only at h1 h2
      simp only [insertion_sort, hgo]
      exact ⟨h2, h1⟩

end SortingAlgorithms

/-! ## Helper lemmas: radix conversion -/

namespace NumberSystemConverter

theorem digitPart_cons_neg (ds : List Char) : digitPart ('-' :: ds) = ds := by
  simp [digitPart]

theorem digitPart_cons (c : Char) (cs : List Char) (h : c ≠ '-') :
    digitPart (c :: cs) = c :: cs := by
  simp [digitPart, h]

theorem digitPart_nil : digitPart [] = [] := rfl

theorem isNeg_cons_neg (ds : List Char) : isNeg ('-' :: ds) = true := by
  simp [isNeg]

theorem isNeg_cons (c : Char) (cs : List Char) (h : c ≠ '-') : isNeg (c :: cs) = false := by
  simp [isNeg, h]

theorem isNeg_nil : isNeg [] = false := rfl

theorem weightedSum_map {β : Type} (b : Nat) (dv : Char → Option Nat) (f : β → Char)
    (val : β → Nat) :
    ∀ (ds : List β) (i : Nat), (∀ x ∈ ds, dv (f x) = some (val x)) →
      weightedSum b dv (ds.map f) i = some (b ^ i * Nat.ofDigits b (ds.map val))
  | [], i, _ => by simp [weightedSum]
  | c :: cs, i, h => by
    have ih := weightedSum_map b dv f val cs (i + 1)
      (fun x hx => h x (List.mem_cons_of_mem c hx))
    simp only [List.map_cons, weightedSum, h c (List.mem_cons_self c cs), ih]
    rw [Nat.ofDigits_cons]
    congr 1
    ring

theorem weightedSum_vals (b : Nat) (dv : Char → Option Nat) (val : Char → Nat)
    (ds : List Char) (i : Nat) (h : ∀ c ∈ ds, dv c = some (val c)) :
    weightedSum b dv ds i = some (b ^ i * Nat.ofDigits b (ds.map val)) := by
  have hm := weightedSum_map b dv id val ds i (by simpa using h)
  simpa using hm

theorem strToDecimal_neg (b : Nat) (dv : Char → Option Nat) (rest : List Char) :
    strToDecimal b dv ('-' :: rest) =
      (weightedSum b dv rest.reverse 0).map (fun n => -(n : Int)) := rfl

theorem strToDecimal_not_neg (b : Nat) (dv : Char → Option Nat) (s : List Char)
    (h : ∀ rest, s ≠ '-' :: rest) :
    strToDecimal b dv s = (weightedSum b dv s.reverse 0).map (fun n => (n : Int)) := by
  cases s with
  | nil => rfl
  | cons c cs =>
    unfold strToDecimal
    split
    · rename_i rest heq
      exact absurd heq (h rest)
    · rfl

theorem natToDigits_zero (b : Nat) : natToDigits b 0 = [] := rfl

theorem natToDigitsAux_eq_digits (b : Nat) (hb : 2 ≤ b) :
    ∀ (fuel n : Nat), n ≤ fuel →
      natToDigitsAux b fuel n = ((Nat.digits b n).reverse).map charOfDigit
  | fuel, 0, _ => by
    cases fuel with
    | zero => simp [natToDigitsAux]
    | succ f => simp [natToDigitsAux]
  | 0, m + 1, hle => by omega
  | fuel + 1, m + 1, hle => by
    have hdiv : (m + 1) / b ≤ fuel := by
      have h1 : (m + 1) / b < m + 1 := Nat.div_lt_self (Nat.succ_pos m) (by omega)
      omega
    have ih := natToDigitsAux_eq_digits b hb fuel ((m + 1) / b) hdiv
    simp only [natToDigitsAux, if_pos hb, ih]
    rw [Nat.digits_def' (by omega : 1 < b) (Nat.succ_pos m)]
    simp [List.map_append, charOfDigit]

theorem natToDigits_eq_digits (b : Nat) (hb : 2 ≤ b) (n : Nat) :
    natToDigits b n = ((Nat.digits b n).reverse).map charOfDigit :=
  natToDigitsAux_eq_digits b hb n n le_rfl

theorem dropWhile_false_of_head (p : Char → Bool) :
    ∀ (l : List Char), (∀ c ∈ l, p c = false) → l.dropWhile p = l
  | [], _ => rfl
  | c :: cs, h => by
    rw [List.dropWhile_cons, h c (List.mem_cons_self c cs)]
    simp

theorem pyStrip_eq_self (l : List Char) (h : ∀ c ∈ l, c.isWhitespace = false) :
    pyStrip l = l := by
  unfold pyStrip
  rw [dropWhile_false_of_head _ l h]
  rw [dropWhile_false_of_head _ l.reverse (fun c hc => h c (List.mem_reverse.mp hc))]
  exact List.reverse_reverse l

theorem parseGen_valid (S : BaseSpec) (L : List Char) (hA : ∀ c ∈ digitPart L, c ∈ S.A) :
    parseGen S L =
      some (signedVal (isNeg L) (Nat.ofDigits S.b (((digitPart L).map S.val)).reverse)) := by
  cases L with
  | nil =>
    simp [parseGen, strToDecimal, weightedSum, digitPart_nil, isNeg_nil, signedVal]
  | cons c cs =>
    by_cases hc : c = '-'
    · subst hc
      have hds : ∀ x ∈ cs, x ∈ S.A := by
        intro x hx
        exact hA x (by rw [digitPart_cons_neg]; exact hx)
      have hfil : ('-' :: cs).filter (fun x => x ≠ ' ') = '-' :: cs := by
        rw [List.filter_eq_self]
        intro a ha
        rcases List.mem_cons.mp ha with rfl | ha2
        · decide
        · simpa using S.hnsp a (hds a ha2)
      simp only [parseGen, hfil, List.map_cons, S.hup_minus]
      rw [strToDecimal_neg]
      rw [show (cs.map S.up).reverse = cs.reverse.map S.up from (List.map_reverse S.up cs).symm]
      rw [weightedSum_map S.b S.dv S.up S.val cs.reverse 0
        (fun x hx => S.hdv x (hds x (List.mem_reverse.mp hx)))]
      simp [digitPart_cons_neg, isNeg_cons_neg, signedVal, List.map_reverse]
    · have hds : ∀ x ∈ c :: cs, x ∈ S.A := by
        intro x hx
        exact hA x (by rw [digitPart_cons c cs hc]; exact hx)
      have hfil : (c :: cs).filter (fun x => x ≠ ' ') = c :: cs := by
        rw [List.filter_eq_self]
        intro a ha
        simpa using S.hnsp a (hds a ha)
      have hhead : ∀ rest, (c :: cs).map S.up ≠ '-' :: rest := by
        intro rest heq
        rw [List.map_cons] at heq
        have : S.up c = '-' := (List.cons.injEq _ _ _ _ ▸ heq).1
        exact S.hnm c (hds c (List.mem_cons_self c cs)) this
      simp only [parseGen, hfil]
      rw [strToDecimal_not_neg S.b S.dv _ hhead]
      rw [show ((c :: cs).map S.up).reverse = (c :: cs).reverse.map S.up from
        (List.map_reverse S.up (c :: cs)).symm]
      rw [weightedSum_map S.b S.dv S.up S.val (c :: cs).reverse 0
        (fun x hx => S.hdv x (hds x (List.mem_reverse.mp hx)))]
      simp [digitPart_cons c cs hc, isNeg_cons c cs hc, signedVal, List.map_reverse]

theorem weightedSum_render (S : BaseSpec) (m : Nat) :
    weightedSum S.b S.dv (((natToDigits S.b m).map S.up).reverse) 0 = some m := by
  rw [natToDigits_eq_digits S.b S.hb]
  rw [show (((Nat.digits S.b m).reverse.map charOfDigit).map S.up).reverse =
      (Nat.digits S.b m).map (S.up ∘ charOfDigit) from by
    rw [List.map_map, ← List.map_reverse, List.reverse_reverse]]
  rw [weightedSum_map S.b S.dv (S.up ∘ charOfDigit) id (Nat.digits S.b m) 0
    (fun d hd => S.hrd d (Nat.digits_lt_base (by have := S.hb; omega) hd))]
  simp [Nat.ofDigits_digits]

theorem render_filter (S : BaseSpec) (m : Nat) :
    (natToDigits S.b m).filter (fun c => c ≠ ' ') = natToDigits S.b m := by
  rw [List.filter_eq_self]
  intro a ha
  rw [natToDigits_eq_digits S.b S.hb] at ha
  obtain ⟨d, hd, rfl⟩ := List.mem_map.mp ha
  have hdb : d < S.b := Nat.digits_lt_base (by have := S.hb; omega) (List.mem_reverse.mp hd)
  simpa using S.hrd_nsp d hdb

theorem render_head_not_minus (S : BaseSpec) (m : Nat) :
    ∀ rest, (natToDigits S.b m).map S.up ≠ '-' :: rest := by
  intro rest heq
  rw [natToDigits_eq_digits S.b S.hb] at heq
  rcases hdig : (Nat.digits S.b m).reverse with _ | ⟨d, ds⟩
  · rw [hdig] at heq
    simp at heq
  · rw [hdig] at heq
    simp only [List.map_cons, List.map_map] at heq
    have hd : S.up (charOfDigit d) = '-' := (List.cons.injEq _ _ _ _ ▸ heq).1
    have hdb : d < S.b := Nat.digits_lt_base (by have := S.hb; omega)
      (List.mem_reverse.mp (hdig ▸ List.mem_cons_self d ds))
    exact S.hrd_nm d hdb hd

theorem parseGen_render (S : BaseSpec) (v : Int) :
    parseGen S (renderToBase S.b v) = some v := by
  rcases lt_trichotomy v 0 with hneg | hzero | hpos
  · have hv0 : ¬ v = 0 := by omega
    have hvn : ¬ 0 ≤ v := by omega
    simp only [renderToBase, if_neg hv0, if_neg hvn]
    have hfil : ('-' :: natToDigits S.b v.natAbs).filter (fun c => c ≠ ' ') =
        '-' :: natToDigits S.b v.natAbs := by
      rw [List.filter_cons]
      rw [render_filter S v.natAbs]
      simp
    simp only [parseGen, hfil, List.map_cons, S.hup_minus]
    rw [strToDecimal_neg]
    rw [weightedSum_render S v.natAbs]
    show some (-(v.natAbs : Int)) = some v
    congr 1
    omega
  · subst hzero
    rw [show renderToBase S.b 0 = ['0'] from rfl]
    have hfil : (['0'] : List Char).filter (fun c => c ≠ ' ') = ['0'] := by decide
    have h0 : S.up '0' = S.up (charOfDigit 0) := rfl
    simp only [parseGen, hfil, List.map_cons, List.map_nil]
    rw [strToDecimal_not_neg S.b S.dv _ (by
      intro rest heq
      have h1 : S.up '0' = '-' := (List.cons.injEq _ _ _ _ ▸ heq).1
      exact S.hrd_nm 0 (by have := S.hb; omega) (h0 ▸ h1))]
    rw [show ([S.up '0'] : List Char).reverse = [0].map (S.up ∘ charOfDigit) from rfl]
    rw [weightedSum_map S.b S.dv (S.up ∘ charOfDigit) id [0] 0 (by
      intro x hx
      rcases List.mem_singleton.mp hx with rfl
      exact S.hrd 0 (by have := S.hb; omega))]
    simp
  · have hv0 : ¬ v = 0 := by omega
    have hvn : 0 ≤ v := by omega
    simp only [renderToBase, if_neg hv0, if_pos hvn]
    simp only [parseGen, render_filter S v.natAbs]
    rw [strToDecimal_not_neg S.b S.dv _ (render_head_not_minus S v.natAbs)]
    rw [weightedSum_render S v.natAbs]
    show some ((v.natAbs : Int)) = some v
    congr 1
    omega

theorem dropWhile_congr_on {α : Type} (p q : α → Bool) :
    ∀ (l : List α), (∀ c ∈ l, p c = q c) → l.dropWhile p = l.dropWhile q
  | [], _ => rfl
  | c :: cs, h => by
    have hc := h c (List.mem_cons_self c cs)
    rw [List.dropWhile_cons, List.dropWhile_cons, hc]
    cases hq : q c with
    | true =>
      simpa using dropWhile_congr_on p q cs (fun x hx => h x (List.mem_cons_of_mem c hx))
    | false => simp

theorem ofDigits_all_zero (b : Nat) :
    ∀ (l : List Nat), (∀ x ∈ l, x = 0) → Nat.ofDigits b l = 0
  | [], _ => rfl
  | x :: xs, h => by
    rw [Nat.ofDigits_cons, h x (List.mem_cons_self x xs),
      ofDigits_all_zero b xs (fun y hy => h y (List.mem_cons_of_mem x hy))]
    simp

theorem renderToBase_normalize (S : BaseSpec) (hble : S.b ≤ 16) (L : List Char)
    (hA : ∀ c ∈ digitPart L, c ∈ S.A) :
    renderToBase S.b (signedVal (isNeg L)
      (Nat.ofDigits S.b (((digitPart L).map S.val)).reverse)) = normalize L := by
  set ds := digitPart L with hds
  set m := Nat.ofDigits S.b ((ds.map S.val)).reverse with hm
  have hgen : ∀ d, d < 16 → (charOfDigit d = '0' ↔ d = 0) := by decide
  have hupper0 : ∀ c ∈ ds, ((c.toUpper == '0') = (c == '0')) := by
    intro c hc
    have h1 := S.hcanon c (hA c hc)
    have h2 := S.hzero c (hA c hc)
    have hd16 : S.val c < 16 := lt_of_lt_of_le (S.hlt c (hA c hc)) hble
    by_cases hcc : c = '0'
    · subst hcc
      rfl
    · have hneq : c.toUpper ≠ '0' := by
        intro hcontra
        exact hcc (h2.mp ((hgen _ hd16).mp (h1.trans hcontra)))
      rw [beq_eq_false_iff_ne.mpr hneq, beq_eq_false_iff_ne.mpr hcc]
  have hcomm : ((ds.map Char.toUpper).dropWhile (· == '0')) =
      (ds.dropWhile (· == '0')).map Char.toUpper := by
    rw [List.dropWhile_map]
    congr 1
    exact dropWhile_congr_on _ _ ds hupper0
  by_cases hm0 : m = 0
  · have hz : ∀ c ∈ ds, c = '0' := by
      intro c hc
      have hmem : S.val c ∈ ((ds.map S.val)).reverse :=
        List.mem_reverse.mpr (List.mem_map_of_mem S.val hc)
      have hv0 : S.val c = 0 :=
        Nat.digits_zero_of_eq_zero (by have := S.hb; omega) (hm ▸ hm0) _ hmem
      exact (S.hzero c (hA c hc)).mp hv0
    have hd0 : ((ds.map Char.toUpper).dropWhile (· == '0')) = [] := by
      rw [List.dropWhile_eq_nil_iff]
      intro x hx
      obtain ⟨c, hc, rfl⟩ := List.mem_map.mp hx
      rw [hz c hc]
      decide
    have hsv : signedVal (isNeg L) 0 = 0 := by cases isNeg L <;> simp [signedVal]
    rw [hm0, hsv]
    rw [show renderToBase S.b 0 = ['0'] from rfl]
    simp [normalize, ← hds, hd0]
  · set ds0 := ds.dropWhile (· == '0') with hds0def
    have hsub0 : ∀ c ∈ ds0, c ∈ S.A := by
      intro c hc
      exact hA c ((List.dropWhile_suffix _).subset hc)
    have hzz : Nat.ofDigits S.b (((ds.takeWhile (· == '0')).map S.val)).reverse = 0 := by
      apply ofDigits_all_zero
      intro x hx
      obtain ⟨c, hc, rfl⟩ := List.mem_map.mp (List.mem_reverse.mp hx)
      have hc0 : c = '0' := by simpa using List.mem_takeWhile_imp hc
      exact (S.hzero c (hA c (List.takeWhile_subset _ hc))).mpr hc0
    have hm0' : Nat.ofDigits S.b ((ds0.map S.val)).reverse = m := by
      have hrev : (ds.map S.val).reverse =
          (ds0.map S.val).reverse ++ ((ds.takeWhile (· == '0')).map S.val).reverse := by
        conv_lhs => rw [show ds = ds.takeWhile (· == '0') ++ ds0 from
          (List.takeWhile_append_dropWhile (· == '0') ds).symm]
        rw [List.map_append, List.reverse_append]
      rw [hm, hrev, Nat.ofDigits_append, hzz, mul_zero, add_zero]
    have hne0 : ds0 ≠ [] := by
      intro h0
      rw [h0] at hm0'
      simp at hm0'
      exact hm0 hm0'.symm
    obtain ⟨c0, cs0, hds0⟩ : ∃ c0 cs0, ds0 = c0 :: cs0 := by
      cases h : ds0 with
      | nil => exact absurd h hne0
      | cons a b => exact ⟨a, b, rfl⟩
    have hc00 : c0 ≠ '0' := by
      have hw : ds.dropWhile (· == '0') ≠ [] := by rw [← hds0def]; exact hne0
      have hh := List.head_dropWhile_not (· == '0') ds hw
      have hcons : ds.dropWhile (· == '0') = c0 :: cs0 := by rw [← hds0def]; exact hds0
      simp only [hcons, List.head_cons] at hh
      intro hcc
      rw [hcc] at hh
      simp at hh
    have hlt0 : ∀ x ∈ ((ds0.map S.val)).reverse, x < S.b := by
      intro x hx
      obtain ⟨c, hc, rfl⟩ := List.mem_map.mp (List.mem_reverse.mp hx)
      exact S.hlt c (hsub0 c hc)
    have hdig : Nat.digits S.b m = ((ds0.map S.val)).reverse := by
      rw [← hm0']
      refine Nat.digits_ofDigits S.b (by have := S.hb; omega) _ hlt0 ?_
      intro hne2
      have hlast : ((ds0.map S.val)).reverse.getLast? = some (S.val c0) := by
        rw [hds0, List.map_cons, List.reverse_cons]
        exact List.getLast?_concat _
      rw [List.getLast?_eq_getLast _ hne2] at hlast
      have hval : ((ds0.map S.val)).reverse.getLast hne2 = S.val c0 := by
        injection hlast
      rw [hval]
      intro h0
      exact hc00 ((S.hzero c0 (hsub0 c0 (hds0 ▸ List.mem_cons_self c0 cs0))).mp h0)
    have hrender : natToDigits S.b m = ds0.map Char.toUpper := by
      rw [natToDigits_eq_digits S.b S.hb, hdig, List.reverse_reverse, List.map_map]
      exact List.map_congr_left (fun c hc => S.hcanon c (hsub0 c hc))
    have hn0 : ((ds.map Char.toUpper).dropWhile (· == '0')) = ds0.map Char.toUpper := by
      rw [hcomm]
    have hnne : ds0.map Char.toUpper ≠ [] := by simp [hds0]
    cases hsign : isNeg L
    · have hsv : signedVal false m = (m : Int) := by simp [signedVal]
      rw [hsv]
      have hr : renderToBase S.b (m : Int) = natToDigits S.b m := by
        simp [renderToBase, hm0]
      rw [hr, hrender]
      simp [normalize, ← hds, hn0, hnne, hsign]
    · have hsv : signedVal true m = -(m : Int) := by simp [signedVal]
      rw [hsv]
      have hr : renderToBase S.b (-(m : Int)) = '-' :: natToDigits S.b m := by
        have h1 : ¬ (-(m : Int) = 0) := by
          simp only [neg_eq_zero, Int.natCast_eq_zero]
          exact hm0
        have h2 : ¬ ((0 : Int) ≤ -(m : Int)) := by
          have : 0 < m := Nat.pos_of_ne_zero hm0
          omega
        simp only [renderToBase, if_neg h1, if_neg h2]
        congr 1
        simp [Int.natAbs_neg]
      rw [hr, hrender]
      simp [normalize, ← hds, hn0, hnne, hsign]

theorem valOf_ne16 (b : Nat) (h : b ≠ 16) : valOf b = fun c => c.toNat - 48 := by
  funext c
  simp [valOf, h]

theorem pyInt_digits_arm (L : List Char) (hne : L ≠ []) (hA : ∀ c ∈ L, c ∈ alphabet 10)
    (hws : pyStrip L = L) :
    pyInt L = (decDigitsVal L).map (fun n => (n : Int)) := by
  have hpm : ∀ x ∈ alphabet 10, x ≠ '+' ∧ x ≠ '-' := by decide
  cases L with
  | nil => exact absurd rfl hne
  | cons c cs =>
    obtain ⟨hp, hm⟩ := hpm c (hA c (List.mem_cons_self c cs))
    unfold pyInt
    rw [hws]
    split
    · rename_i ds heq
      exact absurd ((List.cons.injEq _ _ _ _ ▸ heq).1) hp
    · rename_i ds heq
      exact absurd ((List.cons.injEq _ _ _ _ ▸ heq).1) hm
    · rfl

set_option maxHeartbeats 1000000 in
theorem pyInt_valid (L : List Char) (hA : ∀ c ∈ digitPart L, c ∈ alphabet 10)
    (hne : digitPart L ≠ []) : pyInt L = some (litVal 10 L) := by
  have h10 : ∀ x ∈ alphabet 10, dv10 x = some (x.toNat - 48) := by decide
  have h10ws : ∀ x ∈ alphabet 10, x.isWhitespace = false := by decide
  cases L with
  | nil => simp [digitPart_nil] at hne
  | cons c cs =>
    by_cases hcm : c = '-'
    · subst hcm
      rw [digitPart_cons_neg] at hA hne
      have hws : pyStrip ('-' :: cs) = '-' :: cs := by
        apply pyStrip_eq_self
        intro x hx
        rcases List.mem_cons.mp hx with rfl | hx2
        · decide
        · exact h10ws x (hA x hx2)
      unfold pyInt
      rw [hws]
      show (decDigitsVal cs).map (fun n => -(n : Int)) = some (litVal 10 ('-' :: cs))
      rw [show decDigitsVal cs = weightedSum 10 dv10 cs.reverse 0 from by
        unfold decDigitsVal; rw [if_neg hne]]
      rw [weightedSum_vals 10 dv10 (fun x => x.toNat - 48) cs.reverse 0
        (fun x hx => h10 x (hA x (List.mem_reverse.mp hx)))]
      simp [litVal, valOf_ne16 10 (by norm_num), digitPart_cons_neg, isNeg_cons_neg,
        signedVal, List.map_reverse]
    · have hA2 : ∀ x ∈ c :: cs, x ∈ alphabet 10 := by
        rw [digitPart_cons c cs hcm] at hA
        exact hA
      have hws : pyStrip (c :: cs) = c :: cs :=
        pyStrip_eq_self _ (fun x hx => h10ws x (hA2 x hx))
      rw [pyInt_digits_arm (c :: cs) (List.cons_ne_nil c cs) hA2 hws]
      rw [show decDigitsVal (c :: cs) = weightedSum 10 dv10 (c :: cs).reverse 0 from by
        unfold decDigitsVal; rw [if_neg (List.cons_ne_nil c cs)]]
      rw [weightedSum_vals 10 dv10 (fun x => x.toNat - 48) (c :: cs).reverse 0
        (fun x hx => h10 x (hA2 x (List.mem_reverse.mp hx)))]
      simp [litVal, valOf_ne16 10 (by norm_num), digitPart_cons c cs hcm, isNeg_cons c cs hcm,
        signedVal, List.map_reverse]

theorem pyInt_render (v : Int) : pyInt (renderToBase 10 v) = some v := by
  have hd_alpha : ∀ d, d < 10 → charOfDigit d ∈ alphabet 10 := by decide
  have hd_ws : ∀ x ∈ alphabet 10, x.isWhitespace = false := by decide
  have hchars : ∀ (m : Nat), ∀ x ∈ natToDigits 10 m, x ∈ alphabet 10 := by
    intro m x hx
    rw [natToDigits_eq_digits 10 (by norm_num)] at hx
    obtain ⟨d, hd, rfl⟩ := List.mem_map.mp hx
    exact hd_alpha d (Nat.digits_lt_base (by norm_num) (List.mem_reverse.mp hd))
  have hsum : ∀ (m : Nat), weightedSum 10 dv10 ((natToDigits 10 m)).reverse 0 = some m := by
    intro m
    have h := weightedSum_render bs10 m
    simpa [bs10] using h
  have hnonnil : ∀ (m : Nat), m ≠ 0 → natToDigits 10 m ≠ [] := by
    intro m hm h0
    rw [natToDigits_eq_digits 10 (by norm_num)] at h0
    have : Nat.digits 10 m = [] := by
      have hrev : (Nat.digits 10 m).reverse = [] := by
        exact List.map_eq_nil_iff.mp h0
      simpa using hrev
    exact (Nat.digits_ne_nil_iff_ne_zero.mpr hm) this
  rcases lt_trichotomy v 0 with hneg | hzero | hpos
  · have hv0 : ¬ v = 0 := by omega
    have hvn : ¬ 0 ≤ v := by omega
    have hm : v.natAbs ≠ 0 := by omega
    simp only [renderToBase, if_neg hv0, if_neg hvn]
    have hws : pyStrip ('-' :: natToDigits 10 v.natAbs) = '-' :: natToDigits 10 v.natAbs := by
      apply pyStrip_eq_self
      intro x hx
      rcases List.mem_cons.mp hx with rfl | hx2
      · decide
      · exact hd_ws x (hchars _ x hx2)
    unfold pyInt
    rw [hws]
    show (decDigitsVal (natToDigits 10 v.natAbs)).map (fun n => -(n : Int)) = some v
    rw [show decDigitsVal (natToDigits 10 v.natAbs) =
        weightedSum 10 dv10 (natToDigits 10 v.natAbs).reverse 0 from by
      unfold decDigitsVal; rw [if_neg (hnonnil _ hm)]]
    rw [hsum]
    show some (-(v.natAbs : Int)) = some v
    congr 1
    omega
  · subst hzero
    decide
  · have hv0 : ¬ v = 0 := by omega
    have hvn : 0 ≤ v := by omega
    have hm : v.natAbs ≠ 0 := by omega
    simp only [renderToBase, if_neg hv0, if_pos hvn]
    rw [pyInt_digits_arm (natToDigits 10 v.natAbs) (hnonnil _ hm) (hchars _)
      (pyStrip_eq_self _ (fun x hx => hd_ws x (hchars _ x hx)))]
    rw [show decDigitsVal (natToDigits 10 v.natAbs) =
        weightedSum 10 dv10 (natToDigits 10 v.natAbs).reverse 0 from by
      unfold decDigitsVal; rw [if_neg (hnonnil _ hm)]]
    rw [hsum]
    show some ((v.natAbs : Int)) = some v
    congr 1
    omega

theorem toDec_valid (b : Nat) (hb : b ∈ ([2, 8, 10, 16] : List Nat)) (L : List Char)
    (hL : ValidLit b L) : toDec b L = some (litVal b L) := by
  fin_cases hb
  · have heq : toDec 2 L = parseGen bs2 L := by
      show binary_to_decimal L = parseGen bs2 L
      simp [binary_to_decimal, parseGen, bs2, List.map_id]
    rw [heq, parseGen_valid bs2 L hL.2]
    rfl
  · have heq : toDec 8 L = parseGen bs8 L := by
      show octal_to_decimal L = parseGen bs8 L
      simp [octal_to_decimal, parseGen, bs8, List.map_id]
    rw [heq, parseGen_valid bs8 L hL.2]
    rfl
  · exact pyInt_valid L hL.2 hL.1
  · rw [show toDec 16 L = parseGen bs16 L from rfl, parseGen_valid bs16 L hL.2]
    rfl

theorem fromDec_render (b : Nat) (hb : b ∈ ([2, 8, 10, 16] : List Nat)) (v : Int) :
    fromDec b v = some (renderToBase b v) := by
  fin_cases hb <;> rfl

theorem toDec_render (b : Nat) (hb : b ∈ ([2, 8, 10, 16] : List Nat)) (v : Int) :
    toDec b (renderToBase b v) = some v := by
  fin_cases hb
  · have heq : toDec 2 (renderToBase 2 v) = parseGen bs2 (renderToBase bs2.b v) := by
      show binary_to_decimal (renderToBase 2 v) = parseGen bs2 (renderToBase bs2.b v)
      simp [binary_to_decimal, parseGen, bs2, List.map_id]
    rw [heq]
    exact parseGen_render bs2 v
  · have heq : toDec 8 (renderToBase 8 v) = parseGen bs8 (renderToBase bs8.b v) := by
      show octal_to_decimal (renderToBase 8 v) = parseGen bs8 (renderToBase bs8.b v)
      simp [octal_to_decimal, parseGen, bs8, List.map_id]
    rw [heq]
    exact parseGen_render bs8 v
  · exact pyInt_render v
  · rw [show toDec 16 (renderToBase 16 v) = parseGen bs16 (renderToBase bs16.b v) from rfl]
    exact parseGen_render bs16 v

theorem litVal_normalize (b : Nat) (hb : b ∈ ([2, 8, 10, 16] : List Nat)) (L : List Char)
    (hL : ValidLit b L) : renderToBase b (litVal b L) = normalize L := by
  fin_cases hb
  · exact renderToBase_normalize bs2 (by decide) L hL.2
  · exact renderToBase_normalize bs8 (by decide) L hL.2
  · exact renderToBase_normalize bs10 (by decide) L hL.2
  · exact renderToBase_normalize bs16 (by decide) L hL.2

end NumberSystemConverter

/-! ## Claims C3, C4, C6, C7, C8, C9, C10 -/

/-- C1: round trip of the radix converter: for every valid literal `L` in
base `b` (optional leading minus, at least one digit, all digits in base
`b`'s alphabet, case-insensitive for hexadecimal) and all supported bases
`b, c`, converting from `b` to `c` and back yields the normal form of `L`:
leading zeros stripped, sign preserved, digits in the canonical upper-case
alphabet, and `"0"` as the normal form of every spelling of zero. -/
theorem c1_round_trip (b c : Nat) (hb : b ∈ ([2, 8, 10, 16] : List Nat))
    (hc : c ∈ ([2, 8, 10, 16] : List Nat)) (L : List Char)
    (hL : NumberSystemConverter.ValidLit b L) :
    (NumberSystemConverter.convert L b c).bind
      (fun M => NumberSystemConverter.convert M c b) =
    some (NumberSystemConverter.normalize L) := by
  have h1 := NumberSystemConverter.toDec_valid b hb L hL
  have h2 := NumberSystemConverter.fromDec_render c hc (NumberSystemConverter.litVal b L)
  have h3 := NumberSystemConverter.toDec_render c hc (NumberSystemConverter.litVal b L)
  have h4 := NumberSystemConverter.fromDec_render b hb (NumberSystemConverter.litVal b L)
  have h5 := NumberSystemConverter.litVal_normalize b hb L hL
  simp only [NumberSystemConverter.convert, h1]
  rw [h2]
  show NumberSystemConverter.convert
      (NumberSystemConverter.renderToBase c (NumberSystemConverter.litVal b L)) c b =
    some (NumberSystemConverter.normalize L)
  simp only [NumberSystemConverter.convert, h3]
  rw [h4, h5]

/-- Witness for C1: the lower-case hexadecimal literal "ff" through base 2
and back. -/
theorem c1_round_trip_witness :
    (NumberSystemConverter.convert ['f', 'f'] 16 2).bind
      (fun M => NumberSystemConverter.convert M 2 16) =
    some (NumberSystemConverter.normalize ['f', 'f']) :=
  c1_round_trip 16 2 (by decide) (by decide) ['f', 'f'] (by decide)

/-- C9: set-algebra laws of the SetOperations module: union is commutative,
intersection of a set with itself is the set, difference of a set with itself
is empty, and the cardinality of a union is at most the sum of the two
cardinalities. -/
theorem c9_set_laws {α : Type} [DecidableEq α] (A B : Finset α) :
    SetOperations.union A B = SetOperations.union B A ∧
    SetOperations.intersection A A = A ∧
    SetOperations.difference A A = ∅ ∧
    SetOperations.cardinality (SetOperations.union A B) ≤
      SetOperations.cardinality A + SetOperations.cardinality B :=
  ⟨Finset.union_comm A B, Finset.inter_self A, Finset.sdiff_self A, Finset.card_union_le A B⟩

/-- C8 counterexample: `convert("+5", 10, 10)` does not raise; Python's
`int` accepts an explicit leading plus sign, so the call returns `"5"`. -/
theorem c8_counterexample :
    NumberSystemConverter.convert ['+', '5'] 10 10 = some ['5'] := by decide

/-- C8 amended: a base-10 literal with a leading plus sign is accepted
(native `int` parsing consumes the sign) and converts normally to every
supported target base, while the non-decimal parsers reject the plus sign as
an invalid digit. -/
theorem c8_plus_prefix :
    NumberSystemConverter.convert ['+', '5'] 10 10 = some ['5'] ∧
    NumberSystemConverter.convert ['+', '5'] 10 2 = some ['1', '0', '1'] ∧
    NumberSystemConverter.convert ['+', '5'] 10 8 = some ['5'] ∧
    NumberSystemConverter.convert ['+', '5'] 10 16 = some ['5'] ∧
    NumberSystemConverter.convert ['+', '5'] 2 10 = none ∧
    NumberSystemConverter.convert ['+', '5'] 8 10 = none ∧
    NumberSystemConverter.convert ['+', '5'] 16 10 = none := by decide

/-- C3 counterexample: an empty literal does not raise for `from_base = 2`;
the digit loop of `binary_to_decimal` runs zero times, yielding 0, so
`convert("", 2, 10)` returns `"0"`. -/
theorem c3_counterexample :
    NumberSystemConverter.convert [] 2 10 = some ['0'] := by decide

/-- C3 amended: a literal that is empty after whitespace stripping raises
only when `from_base` is 10 (where Python `int` rejects it); for bases 2, 8
and 16 the positional loop runs zero times and `convert` returns `"0"` for
every supported target base. -/
theorem c3_empty_literal (fb tb : Nat) (hfb : fb ∈ ([2, 8, 16] : List Nat))
    (htb : tb ∈ ([2, 8, 10, 16] : List Nat)) :
    NumberSystemConverter.convert [] 10 tb = none ∧
    NumberSystemConverter.convert [' '] 10 tb = none ∧
    NumberSystemConverter.convert [] fb tb = some ['0'] ∧
    NumberSystemConverter.convert [' '] fb tb = some ['0'] := by
  fin_cases hfb <;> fin_cases htb <;> exact (by decide)

/-- Witness for C3 at `fb = 2`, `tb = 10`. -/
theorem c3_empty_literal_witness :
    NumberSystemConverter.convert [] 10 10 = none ∧
    NumberSystemConverter.convert [] 2 10 = some ['0'] := by
  have h := c3_empty_literal 2 10 (by decide) (by decide)
  exact ⟨h.1, h.2.2.1⟩

/-- C7: frame contract of the sort and search engines at the object level:
each sort works on a private copy and leaves the caller's list object
unchanged, and each search leaves the whole store unchanged. -/
theorem c7_frame {α : Type} [LinearOrder α] [Inhabited α] (σ : Store α) (array : Nat)
    (target : α) (h : array < σ.next) :
    (SortingAlgorithms.bubble_sort_call σ array).1.mem array = σ.mem array ∧
    (SortingAlgorithms.selection_sort_call σ array).1.mem array = σ.mem array ∧
    (SortingAlgorithms.insertion_sort_call σ array).1.mem array = σ.mem array ∧
    (SearchingAlgorithms.linear_search_call σ array target).1 = σ ∧
    (SearchingAlgorithms.binary_search_call σ array target).1 = σ := by
  have hne : array ≠ σ.next := Nat.ne_of_lt h
  refine ⟨?_, ?_, ?_, rfl, rfl⟩ <;>
    simp [SortingAlgorithms.bubble_sort_call, SortingAlgorithms.selection_sort_call,
      SortingAlgorithms.insertion_sort_call, Store.alloc, Store.write, hne]

/-- Witness for C7 on a one-object store holding `[3, 1, 2]`. -/
theorem c7_frame_witness :
    (SortingAlgorithms.bubble_sort_call (Store.mk (fun _ => ([3, 1, 2] : List Int)) 1) 0).1.mem 0 =
      (Store.mk (fun _ => ([3, 1, 2] : List Int)) 1).mem 0 ∧
    (SearchingAlgorithms.linear_search_call (Store.mk (fun _ => ([3, 1, 2] : List Int)) 1) 0
        (5 : Int)).1 = Store.mk (fun _ => ([3, 1, 2] : List Int)) 1 := by
  have hw := c7_frame (Store.mk (fun _ => ([3, 1, 2] : List Int)) 1) 0 (5 : Int) (by decide)
  exact ⟨hw.1, hw.2.2.2.1⟩

/-- C10: when the target occurs in the array (in particular when it occurs
more than once), `linear_search` returns the smallest index holding the
target: the returned index is in range, holds the target, and every earlier
index does not. -/
theorem c10_linear_first {α : Type} [DecidableEq α] (a : List α) (t : α)
    (h : 2 ≤ a.count t) :
    ∃ k : Nat, (SearchingAlgorithms.linear_search a t).1 = (k : Int) ∧ k < a.length ∧
      a.getD k t = t ∧ ∀ j < k, a.getD j t ≠ t := by
  have hmem : t ∈ a := List.count_pos_iff.mp (by omega)
  obtain ⟨k, h1, h2, h3, h4⟩ := SearchingAlgorithms.linGo_first t a 0 hmem
  exact ⟨k, by simpa using h1, h2, h3, h4⟩

/-- Witness for C10 on `[1, 1]` with target 1. -/
theorem c10_linear_first_witness :
    2 ≤ List.count 1 ([1, 1] : List ℕ) ∧
    ∃ k : Nat, (SearchingAlgorithms.linear_search ([1, 1] : List ℕ) 1).1 = (k : Int) ∧
      k < ([1, 1] : List ℕ).length ∧ List.getD [1, 1] k 1 = 1 ∧
      ∀ j < k, List.getD [1, 1] j 1 ≠ 1 :=
  ⟨by decide, c10_linear_first [1, 1] 1 (by decide)⟩

/-- C4 counterexample: `linear_search([2,5,8,12,16,23,38,45,56], 23)` does
return index 5 but its trace has 7 lines (six comparison lines plus the
success line), not 6. -/
theorem c4_counterexample :
    (SearchingAlgorithms.linear_search ([2, 5, 8, 12, 16, 23, 38, 45, 56] : List Int) 23).1 = 5 ∧
    (SearchingAlgorithms.linear_search ([2, 5, 8, 12, 16, 23, 38, 45, 56] : List Int) 23).2.length
      ≠ 6 := by decide

/-- C4 amended: the example search returns index 5 with a trace of exactly 7
lines (one comparison line per inspected element plus the success line); for
any target absent from any array the search returns the sentinel `-1` and its
trace ends with the failure line. -/
theorem c4_linear_example {α : Type} [DecidableEq α] (a : List α) (t : α) (h : t ∉ a) :
    (SearchingAlgorithms.linear_search ([2, 5, 8, 12, 16, 23, 38, 45, 56] : List Int) 23).1 = 5 ∧
    (SearchingAlgorithms.linear_search ([2, 5, 8, 12, 16, 23, 38, 45, 56] : List Int) 23).2.length
      = 7 ∧
    (SearchingAlgorithms.linear_search a t).1 = -1 ∧
    (SearchingAlgorithms.linear_search a t).2.getLast? =
      some SearchingAlgorithms.LinStep.notFound := by
  obtain ⟨h1, h2, _⟩ := SearchingAlgorithms.linGo_absent t a 0 h
  exact ⟨by decide, by decide, h1, h2⟩

/-- Witness for C4 with the absent target 9 on `[2]`. -/
theorem c4_linear_example_witness :
    (SearchingAlgorithms.linear_search ([2] : List Int) 9).1 = -1 ∧
    (SearchingAlgorithms.linear_search ([2] : List Int) 9).2.getLast? =
      some SearchingAlgorithms.LinStep.notFound := by
  have h := c4_linear_example ([2] : List Int) 9 (by decide)
  exact ⟨h.2.2.1, h.2.2.2⟩

/-- C6 counterexample: the empty array is sorted, yet `bubble_sort([])`
produces no pass header at all and no "no swaps needed" line (the outer loop
body never runs), so the claim fails on the empty array. -/
theorem c6_counterexample :
    ([] : List Int).Sorted (· ≤ ·) ∧
    ((SortingAlgorithms.bubble_sort ([] : List Int)).2.filter
      SortingAlgorithms.isPassStep).length = 0 ∧
    SortingAlgorithms.BubbleStep.noSwaps ∉ (SortingAlgorithms.bubble_sort ([] : List Int)).2 := by
  refine ⟨by simp, by decide, by decide⟩

/-- C6 amended: for every nonempty already-sorted array, the bubble-sort
trace is exactly the start line, one single pass header, the "no swaps
needed" line and the final line — one pass, the early exit taken, the array
returned unchanged. -/
theorem c6_bubble_sorted {α : Type} [LinearOrder α] (l : List α) (hne : l ≠ [])
    (hs : l.Sorted (· ≤ ·)) :
    (SortingAlgorithms.bubble_sort l).2 =
      [SortingAlgorithms.BubbleStep.start l, SortingAlgorithms.BubbleStep.pass 1,
        SortingAlgorithms.BubbleStep.noSwaps, SortingAlgorithms.BubbleStep.final l] ∧
    ((SortingAlgorithms.bubble_sort l).2.filter SortingAlgorithms.isPassStep).length = 1 ∧
    SortingAlgorithms.BubbleStep.noSwaps ∈ (SortingAlgorithms.bubble_sort l).2 ∧
    (SortingAlgorithms.bubble_sort l).1 = l := by
  obtain ⟨n, hn⟩ : ∃ n, l.length = n + 1 := by
    cases l with
    | nil => exact absurd rfl hne
    | cons x xs => exact ⟨xs.length, rfl⟩
  have hmain : SortingAlgorithms.bubble_sort l =
      (l, [SortingAlgorithms.BubbleStep.start l, SortingAlgorithms.BubbleStep.pass 1,
        SortingAlgorithms.BubbleStep.noSwaps, SortingAlgorithms.BubbleStep.final l]) := by
    simp [SortingAlgorithms.bubble_sort, hn, SortingAlgorithms.bubbleGo_sorted n 1 l hs]
  rw [hmain]
  exact ⟨rfl, rfl, by simp, rfl⟩

/-- C2: each of the three sorting algorithms returns a non-decreasing
permutation of its input (over any totally ordered element type, covering the
all-integers and all-strings cases), and consequently all three return the
same array on the same input. -/
theorem c2_sorts {α : Type} [LinearOrder α] (l : List α) :
    ((SortingAlgorithms.bubble_sort l).1.Sorted (· ≤ ·) ∧
      (SortingAlgorithms.bubble_sort l).1 ~ l) ∧
    ((SortingAlgorithms.selection_sort l).1.Sorted (· ≤ ·) ∧
      (SortingAlgorithms.selection_sort l).1 ~ l) ∧
    ((SortingAlgorithms.insertion_sort l).1.Sorted (· ≤ ·) ∧
      (SortingAlgorithms.insertion_sort l).1 ~ l) ∧
    (SortingAlgorithms.bubble_sort l).1 = (SortingAlgorithms.selection_sort l).1 ∧
    (SortingAlgorithms.selection_sort l).1 = (SortingAlgorithms.insertion_sort l).1 := by
  obtain ⟨hbp, hbs⟩ := SortingAlgorithms.bubble_sort_sorted_perm l
  obtain ⟨hsp, hss⟩ := SortingAlgorithms.selection_sort_sorted_perm l
  obtain ⟨hip, his⟩ := SortingAlgorithms.insertion_sort_sorted_perm l
  refine ⟨⟨hbs, hbp⟩, ⟨hss, hsp⟩, ⟨his, hip⟩, ?_, ?_⟩
  · exact List.eq_of_perm_of_sorted (hbp.trans hsp.symm) hbs hss
  · exact List.eq_of_perm_of_sorted (hsp.trans hip.symm) hss his

/-- Witness for C2 on the concrete array `[3, 1, 2]`. -/
theorem c2_sorts_witness :
    (SortingAlgorithms.bubble_sort ([3, 1, 2] : List Int)).1 =
      (SortingAlgorithms.selection_sort ([3, 1, 2] : List Int)).1 ∧
    (SortingAlgorithms.selection_sort ([3, 1, 2] : List Int)).1 =
      (SortingAlgorithms.insertion_sort ([3, 1, 2] : List Int)).1 :=
  ⟨(c2_sorts ([3, 1, 2] : List Int)).2.2.2.1, (c2_sorts ([3, 1, 2] : List Int)).2.2.2.2⟩

/-- Witness for C9 on concrete finite sets of naturals. -/
theorem c9_set_laws_witness :
    SetOperations.union ({1, 2} : Finset ℕ) {2, 3} = SetOperations.union {2, 3} {1, 2} ∧
    SetOperations.intersection ({1, 2} : Finset ℕ) {1, 2} = {1, 2} ∧
    SetOperations.difference ({1, 2} : Finset ℕ) {1, 2} = ∅ ∧
    SetOperations.cardinality (SetOperations.union ({1, 2} : Finset ℕ) {2, 3}) ≤
      SetOperations.cardinality ({1, 2} : Finset ℕ) + SetOperations.cardinality {2, 3} :=
  c9_set_laws {1, 2} {2, 3}

/-- Evaluation of the example binary search: the bisection probes indices 4,
6 and 5 and finds 23 at index 5 after three iterations, a six-line trace. -/
theorem binary_search_example :
    SearchingAlgorithms.binary_search ([2, 5, 8, 12, 16, 23, 38, 45, 56] : List Int) 23 =
      (5, [SearchingAlgorithms.BinStep.probe 1 4 16, SearchingAlgorithms.BinStep.goRight 5 8,
        SearchingAlgorithms.BinStep.probe 2 6 38, SearchingAlgorithms.BinStep.goLeft 5 5,
        SearchingAlgorithms.BinStep.probe 3 5 23, SearchingAlgorithms.BinStep.found 5]) := by
  have step3 :
      SearchingAlgorithms.binGo ([2, 5, 8, 12, 16, 23, 38, 45, 56] : List Int) 23 5 5 3 =
        (5, [SearchingAlgorithms.BinStep.probe 3 5 23,
          SearchingAlgorithms.BinStep.found 5]) := by
    rw [SearchingAlgorithms.binGo.eq_def]
    rw [show ((5 : Int) + 5).fdiv 2 = 5 from by decide]
    norm_num
    decide
  have step2 :
      SearchingAlgorithms.binGo ([2, 5, 8, 12, 16, 23, 38, 45, 56] : List Int) 23 5 8 2 =
        (5, [SearchingAlgorithms.BinStep.probe 2 6 38, SearchingAlgorithms.BinStep.goLeft 5 5,
          SearchingAlgorithms.BinStep.probe 3 5 23, SearchingAlgorithms.BinStep.found 5]) := by
    rw [SearchingAlgorithms.binGo.eq_def]
    rw [show ((5 : Int) + 8).fdiv 2 = 6 from by decide]
    norm_num
    rw [step3]
    decide
  have step1 :
      SearchingAlgorithms.binGo ([2, 5, 8, 12, 16, 23, 38, 45, 56] : List Int) 23 0 8 1 =
        (5, [SearchingAlgorithms.BinStep.probe 1 4 16, SearchingAlgorithms.BinStep.goRight 5 8,
          SearchingAlgorithms.BinStep.probe 2 6 38, SearchingAlgorithms.BinStep.goLeft 5 5,
          SearchingAlgorithms.BinStep.probe 3 5 23, SearchingAlgorithms.BinStep.found 5]) := by
    rw [SearchingAlgorithms.binGo.eq_def]
    rw [show ((0 : Int) + 8).fdiv 2 = 4 from by decide]
    norm_num
    rw [step2]
    decide
  unfold SearchingAlgorithms.binary_search
  norm_num
  exact step1

/-- C5: binary_search on [2,5,8,12,16,23,38,45,56] with target 23 returns
index 5 with a six-line trace, strictly shorter than linear_search's
worst-case (absent-target) ten-line trace on the same nine-element array. -/
theorem c5_binary_vs_linear :
    (SearchingAlgorithms.binary_search ([2, 5, 8, 12, 16, 23, 38, 45, 56] : List Int) 23).1 = 5 ∧
    (SearchingAlgorithms.binary_search ([2, 5, 8, 12, 16, 23, 38, 45, 56] : List Int) 23).2.length
      = 6 ∧
    ∀ t : Int, t ∉ ([2, 5, 8, 12, 16, 23, 38, 45, 56] : List Int) →
      (SearchingAlgorithms.linear_search ([2, 5, 8, 12, 16, 23, 38, 45, 56] : List Int)
        t).2.length = 10 ∧
      (SearchingAlgorithms.binary_search ([2, 5, 8, 12, 16, 23, 38, 45, 56] : List Int)
        23).2.length <
      (SearchingAlgorithms.linear_search ([2, 5, 8, 12, 16, 23, 38, 45, 56] : List Int)
        t).2.length := by
  have hb := binary_search_example
  refine ⟨by rw [hb], by rw [hb]; rfl, ?_⟩
  intro t ht
  obtain ⟨-, -, hlen⟩ := SearchingAlgorithms.linGo_absent t
    ([2, 5, 8, 12, 16, 23, 38, 45, 56] : List Int) 0 ht
  have hlen10 : (SearchingAlgorithms.linear_search
      ([2, 5, 8, 12, 16, 23, 38, 45, 56] : List Int) t).2.length = 10 := by
    simpa [SearchingAlgorithms.linear_search] using hlen
  refine ⟨hlen10, ?_⟩
  rw [hb, hlen10]
  norm_num

/-- Witness for C5 with the absent target 99. -/
theorem c5_binary_vs_linear_witness :
    (SearchingAlgorithms.linear_search ([2, 5, 8, 12, 16, 23, 38, 45, 56] : List Int)
      99).2.length = 10 ∧
    (SearchingAlgorithms.binary_search ([2, 5, 8, 12, 16, 23, 38, 45, 56] : List Int)
      23).2.length <
    (SearchingAlgorithms.linear_search ([2, 5, 8, 12, 16, 23, 38, 45, 56] : List Int)
      99).2.length :=
  c5_binary_vs_linear.2.2 99 (by decide)

/-- Witness for C6 on the sorted array `[1, 2]`. -/
theorem c6_bubble_sorted_witness :
    (SortingAlgorithms.bubble_sort ([1, 2] : List Int)).2 =
      [SortingAlgorithms.BubbleStep.start [1, 2], SortingAlgorithms.BubbleStep.pass 1,
        SortingAlgorithms.BubbleStep.noSwaps, SortingAlgorithms.BubbleStep.final [1, 2]] :=
  (c6_bubble_sorted ([1, 2] : List Int) (by decide) (by decide)).1

end DiscreteCalc
